import Mathlib

/-!
# Verification of the taxi agent (`taxi.py`)

A shallow embedding of the taxi agent's decision core: the path planner
(`_planPath`, lazy Dijkstra over the knowledge map with a `heapq` frontier),
the bid evaluator (`_bidOnFare`), the per-tick decision routine (`clockTick`),
the movement commit logic (`drive`) and the dispatcher protocol handler
(`recvMsg`).  Node coordinates are opaque identities, so they are modelled by
an arbitrary type `V` with decidable equality and (for the planner's heap,
which compares `(distance, node)` tuples the way Python compares tuples) a
linear order.  Edge weights are modelled as naturals: the specification only
concerns non-negative weights, and all arithmetic on them in the source is
addition and comparison.  Times, prices and the account are Python ints and
are modelled by `ℤ` (`simTime - time` is genuine subtraction).

The Python `heapq` is modelled by a list kept sorted under the lexicographic
order on `(distance, node)`: `heappush` is ordered insertion and `heappop`
takes the head.  Both structures always pop a minimal element of the same
multiset of entries under the same total order, and entries that compare
equal are identical tuples, so the sequence of popped values — the only thing
the algorithm observes — is the same.

The planner's `while` loop is written with explicit fuel; `dijkstraFuel`
is proved sufficient (`dloop_halts`), so with that fuel the function computes
the loop's actual fixpoint.
-/

set_option linter.unusedVariables false
set_option linter.unusedSectionVars false

namespace TaxiProof

/-- The knowledge map `_map`: an association list from node to its neighbour
list, each neighbour carrying the edge weight (`_map[node][nbr][1]`; the
direction label `_map[node][nbr][0]` plays no role in path planning and is
kept separately where it matters).  Association lists with unique keys model
Python dicts, including their insertion order. -/
abbrev KMap (V : Type) := List (V × List (V × ℕ))

/-- First-match association-list lookup: the model of Python dict indexing
(for unique keys the first match is the only one). -/
def lookupKey {α β : Type} [DecidableEq α] : List (α × β) → α → Option β
  | [], _ => none
  | e :: t, k => if e.1 = k then some e.2 else lookupKey t k

/-- The keys of an association list (`dict.keys()`). -/
def keysOf {α β : Type} (l : List (α × β)) : List α := l.map (fun e => e.1)

variable {V : Type} [DecidableEq V]

/-- Neighbour list of a node, `[]` when the node is not a key of the map.
(`_planPath` only ever indexes the map at nodes of the graph; for a
well-formed, closed map the default branch is dead.) -/
def nbrs (M : KMap V) (v : V) : List (V × ℕ) := (lookupKey M v).getD []

/-- The weight of the edge from `a` to `b`, when the map records one. -/
def edgeW (M : KMap V) (a b : V) : Option ℕ := lookupKey (nbrs M a) b

/-- `a` has a recorded edge to `b`. -/
def Adj (M : KMap V) (a b : V) : Prop := edgeW M a b ≠ none

instance (M : KMap V) (a b : V) : Decidable (Adj M a b) := by
  unfold Adj; infer_instance

/-- Edge weight with default `0`; only applied along actual edges. -/
def wOf (M : KMap V) (a b : V) : ℕ := (edgeW M a b).getD 0

/-- A node sequence whose consecutive pairs are recorded edges. -/
def IsChain (M : KMap V) (p : List V) : Prop := List.Chain' (Adj M) p

/-- Total edge weight of a node sequence. -/
def chainW (M : KMap V) : List V → ℕ
  | [] => 0
  | [_] => 0
  | a :: b :: t => wOf M a b + chainW M (b :: t)

/-- A route from `o` to `d` in the knowledge map: a chain of recorded edges
starting at `o` and ending at `d` (so `[o]` is the trivial route from `o`
to itself). -/
def IsRoute (M : KMap V) (o d : V) (p : List V) : Prop :=
  IsChain M p ∧ p.head? = some o ∧ p.getLast? = some d

section Planner

variable [LinearOrder V]

/-- The order in which Python compares the `(distance, node)` tuples pushed
on the planner's heap. -/
def pairLe (a b : ℕ × V) : Prop := a.1 < b.1 ∨ (a.1 = b.1 ∧ a.2 ≤ b.2)

instance : DecidableRel (pairLe (V := V)) := fun a b => by
  unfold pairLe; infer_instance

instance : IsTotal (ℕ × V) pairLe where
  total a b := by
    unfold pairLe
    rcases lt_trichotomy a.1 b.1 with h | h | h
    · exact Or.inl (Or.inl h)
    · rcases le_total a.2 b.2 with h2 | h2
      · exact Or.inl (Or.inr ⟨h, h2⟩)
      · exact Or.inr (Or.inr ⟨h.symm, h2⟩)
    · exact Or.inr (Or.inl h)

instance : IsTrans (ℕ × V) pairLe where
  trans a b c hab hbc := by
    unfold pairLe at *
    rcases hab with h | ⟨h, h2⟩ <;> rcases hbc with h' | ⟨h', h2'⟩
    · exact Or.inl (h.trans h')
    · exact Or.inl (h'.symm ▸ h)
    · exact Or.inl (h ▸ h')
    · exact Or.inr ⟨h.trans h', h2.trans h2'⟩

/-- The planner's working state: the heap `h`, the tentative-distance dict
`distances`, the `parent` pointers, and the settled set `s` (a list, in
settling order; Python's `set` membership is order-blind and the order is
only used by the proofs). -/
structure DState (V : Type) where
  h : List (ℕ × V)
  dist : V → Option ℕ
  parent : V → Option V
  s : List V

/-- One relaxation: the body of
`for node, edge in self._map[cur].items(): ...` for a single neighbour
`e = (node, weight)`.  Updates `distances[node]`, pushes the new entry, and
records `parent[node] = cur` exactly when the strict improvement test
`distances[node] > distances[cur] + edge[1]` (or absence) fires. -/
def relaxOne (cur : V) (st : DState V) (e : V × ℕ) : DState V :=
  match st.dist cur with
  | none => st
  | some dc =>
    let cand := dc + e.2
    let doUpd : Bool :=
      match st.dist e.1 with
      | none => true
      | some dn => decide (cand < dn)
    if doUpd then
      { h := st.h.orderedInsert pairLe (cand, e.1)
        dist := fun v => if v = e.1 then some cand else st.dist v
        parent := fun v => if v = e.1 then some cur else st.parent v
        s := st.s }
    else st

/-- One iteration of the planner's `while len(h) > 0` loop: pop the minimal
entry; if its node is already settled, `continue`; otherwise settle it and
relax all its outgoing edges. -/
def dstep (M : KMap V) (st : DState V) : DState V :=
  match st.h with
  | [] => st
  | (_, cur) :: rest =>
    if cur ∈ st.s then { st with h := rest }
    else (nbrs M cur).foldl (relaxOne cur) { st with h := rest, s := st.s ++ [cur] }

/-- The planner's loop, with fuel.  `dijkstraFuel` is proved sufficient for
the heap to empty, so with that fuel this is the loop's fixpoint. -/
def dloop (M : KMap V) : ℕ → DState V → DState V
  | 0, st => st
  | n + 1, st =>
    match st.h with
    | [] => st
    | _ => dloop M n (dstep M st)

/-- `h = [(0, origin)]; distances = {origin: 0}; parent = {}; s = set()`. -/
def initDState (origin : V) : DState V where
  h := [(0, origin)]
  dist := fun v => if v = origin then some 0 else none
  parent := fun _ => none
  s := []

/-- The total number of neighbour entries of the map. -/
def totalDeg (M : KMap V) : ℕ := (M.map (fun e => e.2.length)).sum

/-- Enough iterations for the frontier to drain: one initial push plus at
most one push per neighbour entry, since each node's edges are relaxed only
on the single iteration that settles it. -/
def dijkstraFuel (M : KMap V) : ℕ := totalDeg M + 1

/-- The reconstruction walk
`while True: path.append(last); if last in parent: last = parent[last] else break`,
with fuel (the parent pointers strictly descend the settling order, so
`|s| + 1` steps always reach a parentless node). -/
def walkParent (par : V → Option V) : ℕ → V → List V
  | 0, v => [v]
  | n + 1, v =>
    v :: (match par v with
          | none => []
          | some u => walkParent par n u)

/-- `_planPath(origin, destination)`: run the loop; if the destination never
acquired a distance return `[]`; otherwise walk the parent pointers back
from the destination and reverse. -/
def planPath (M : KMap V) (origin destination : V) : List V :=
  let fin := dloop M (dijkstraFuel M) (initDState origin)
  match fin.dist destination with
  | none => []
  | some _ => (walkParent fin.parent (fin.s.length + 1) destination).reverse

end Planner

/-! ## Basic facts about lookups, edges, chains and routes -/

lemma lookupKey_mem {α β : Type} [DecidableEq α] {l : List (α × β)} {k : α} {b : β}
    (h : lookupKey l k = some b) : (k, b) ∈ l := by
  induction l with
  | nil => simp [lookupKey] at h
  | cons e t ih =>
    rw [lookupKey] at h
    by_cases he : e.1 = k
    · rw [if_pos he] at h
      cases h
      exact List.mem_cons.mpr (Or.inl (by rw [← he]))
    · rw [if_neg he] at h
      exact List.mem_cons.mpr (Or.inr (ih h))

lemma lookupKey_eq_of_mem_nodup {α β : Type} [DecidableEq α] {l : List (α × β)} {k : α} {b : β}
    (hn : (keysOf l).Nodup) (h : (k, b) ∈ l) : lookupKey l k = some b := by
  induction l with
  | nil => simp at h
  | cons e t ih =>
    rw [keysOf, List.map_cons, List.nodup_cons] at hn
    rcases List.mem_cons.mp h with h | h
    · cases h
      simp [lookupKey]
    · rw [lookupKey]
      have hne : e.1 ≠ k := by
        intro hc
        exact hn.1 (hc ▸ (List.mem_map.mpr ⟨(k, b), h, rfl⟩))
      rw [if_neg hne]
      exact ih hn.2 h

lemma edgeW_mem {M : KMap V} {a b : V} {w : ℕ} (h : edgeW M a b = some w) :
    (b, w) ∈ nbrs M a := lookupKey_mem h

lemma adj_of_edgeW {M : KMap V} {a b : V} {w : ℕ} (h : edgeW M a b = some w) :
    Adj M a b := by
  unfold Adj
  rw [h]
  exact Option.some_ne_none w

lemma wOf_of_edgeW {M : KMap V} {a b : V} {w : ℕ} (h : edgeW M a b = some w) :
    wOf M a b = w := by rw [wOf, h]; rfl

/-- `NbrKeysNodup M`: every neighbour list of the map has pairwise distinct
node keys; automatic for lists arising from Python dicts. -/
def NbrKeysNodup (M : KMap V) : Prop := ∀ q ∈ M, (keysOf q.2).Nodup

lemma nbrs_nodup {M : KMap V} (Hnb : NbrKeysNodup M) (a : V) :
    (keysOf (nbrs M a)).Nodup := by
  unfold nbrs
  cases hl : lookupKey M a with
  | none => simp [keysOf]
  | some l =>
    exact Hnb (a, l) (lookupKey_mem hl)

lemma edgeW_of_mem_nbrs {M : KMap V} (Hnb : NbrKeysNodup M) {a b : V} {w : ℕ}
    (h : (b, w) ∈ nbrs M a) : edgeW M a b = some w :=
  lookupKey_eq_of_mem_nodup (nbrs_nodup Hnb a) h

lemma adj_iff_mem_nbrs {M : KMap V} (Hnb : NbrKeysNodup M) {a b : V} :
    Adj M a b ↔ ∃ w, (b, w) ∈ nbrs M a := by
  constructor
  · intro h
    unfold Adj at h
    cases he : edgeW M a b with
    | none => exact absurd he h
    | some w => exact ⟨w, edgeW_mem he⟩
  · rintro ⟨w, hw⟩
    exact adj_of_edgeW (edgeW_of_mem_nbrs Hnb hw)

lemma chainW_append_last {M : KMap V} {q : List V} {u v : V}
    (hq : q.getLast? = some u) : chainW M (q ++ [v]) = chainW M q + wOf M u v := by
  induction q with
  | nil => simp at hq
  | cons a t ih =>
    cases t with
    | nil =>
      simp only [List.getLast?_singleton, Option.some.injEq] at hq
      subst hq
      simp [chainW]
    | cons b t' =>
      have hq' : (b :: t').getLast? = some u := by
        rwa [List.getLast?_cons_cons] at hq
      have : (a :: b :: t') ++ [v] = a :: ((b :: t') ++ [v]) := rfl
      rw [this]
      have hcons : chainW M (a :: (b :: t' ++ [v])) = wOf M a b + chainW M (b :: t' ++ [v]) := rfl
      rw [hcons, ih hq', chainW]
      ring

lemma isRoute_singleton (M : KMap V) (o : V) : IsRoute M o o [o] := by
  refine ⟨List.chain'_singleton o, rfl, rfl⟩

lemma isRoute_snoc {M : KMap V} {o u v : V} {q : List V}
    (hq : IsRoute M o u q) (ha : Adj M u v) : IsRoute M o v (q ++ [v]) := by
  obtain ⟨hc, hh, hl⟩ := hq
  have hqne : q ≠ [] := by
    intro h
    rw [h] at hh
    simp at hh
  refine ⟨?_, ?_, ?_⟩
  · rw [IsChain, List.chain'_append]
    refine ⟨hc, List.chain'_singleton v, ?_⟩
    intro x hx y hy
    rw [hl] at hx
    cases hx
    simp only [List.head?_cons, Option.mem_def, Option.some.injEq] at hy
    cases hy
    exact ha
  · rwa [List.head?_append_of_ne_nil _ hqne]
  · rw [List.getLast?_concat]

/-- Route decomposition from the right: a route is either the trivial route
`[o]`, or a shorter route followed by one edge. -/
lemma isRoute_cases {M : KMap V} {o v : V} {p : List V} (hp : IsRoute M o v p) :
    (p = [o] ∧ v = o) ∨
    (∃ q u, q ≠ [] ∧ p = q ++ [v] ∧ q.getLast? = some u ∧ IsRoute M o u q ∧ Adj M u v ∧
      chainW M p = chainW M q + wOf M u v) := by
  obtain ⟨hc, hh, hl⟩ := hp
  rcases List.eq_nil_or_concat p with rfl | ⟨q, b, hpc⟩
  · simp at hh
  · rw [List.concat_eq_append] at hpc
    subst hpc
    have hb : b = v := by
      rw [List.getLast?_concat] at hl
      exact Option.some_injective _ hl
    subst hb
    cases q with
    | nil =>
      left
      simp only [List.nil_append, List.head?_cons, Option.some.injEq] at hh
      exact ⟨by rw [hh, List.nil_append], hh⟩
    | cons a t =>
      right
      have hqne : a :: t ≠ [] := List.cons_ne_nil a t
      obtain ⟨u, hu⟩ : ∃ u, (a :: t).getLast? = some u :=
        ⟨(a :: t).getLast hqne, List.getLast?_eq_getLast _ hqne⟩
      rw [IsChain, List.chain'_append] at hc
      have hadj : Adj M u b := by
        refine hc.2.2 u ?_ b ?_
        · exact hu
        · rfl
      refine ⟨a :: t, u, hqne, rfl, hu, ⟨hc.1, ?_, hu⟩, hadj, chainW_append_last hu⟩
      rwa [List.head?_append_of_ne_nil _ hqne] at hh

/-! ## Termination of the planner loop

Each iteration pops one heap entry and pushes at most one entry per
neighbour of a newly settled node; a node is settled at most once, so the
measure `|heap| + Σ degrees of unsettled map keys` strictly decreases. -/

section Termination

variable [LinearOrder V]

/-- Total degree of the map keys not yet settled. -/
def unsettledDeg (M : KMap V) (s : List V) : ℕ :=
  ((M.filter (fun e => decide (e.1 ∉ s))).map (fun e => e.2.length)).sum

/-- The loop measure. -/
def dmeasure (M : KMap V) (st : DState V) : ℕ := st.h.length + unsettledDeg M st.s

lemma unsettledDeg_cons (e : V × List (V × ℕ)) (t : KMap V) (s : List V) :
    unsettledDeg (e :: t) s = (if e.1 ∈ s then 0 else e.2.length) + unsettledDeg t s := by
  unfold unsettledDeg
  rw [List.filter_cons]
  by_cases h : e.1 ∈ s
  · simp [h]
  · simp [h]

lemma nbrs_cons (e : V × List (V × ℕ)) (t : KMap V) (v : V) :
    nbrs (e :: t) v = if e.1 = v then e.2 else nbrs t v := by
  unfold nbrs
  rw [lookupKey]
  by_cases h : e.1 = v
  · rw [if_pos h, if_pos h]
    rfl
  · rw [if_neg h, if_neg h]

lemma unsettledDeg_mono {M : KMap V} {s s' : List V} (h : ∀ v ∈ s, v ∈ s') :
    unsettledDeg M s' ≤ unsettledDeg M s := by
  induction M with
  | nil => simp [unsettledDeg]
  | cons e t ih =>
    rw [unsettledDeg_cons, unsettledDeg_cons]
    by_cases h1 : e.1 ∈ s
    · rw [if_pos h1, if_pos (h _ h1)]
      omega
    · rw [if_neg h1]
      by_cases h2 : e.1 ∈ s'
      · rw [if_pos h2]
        omega
      · rw [if_neg h2]
        omega

lemma unsettledDeg_snoc {M : KMap V} {s : List V} {cur : V} (hc : cur ∉ s) :
    unsettledDeg M (s ++ [cur]) + (nbrs M cur).length ≤ unsettledDeg M s := by
  induction M with
  | nil => simp [unsettledDeg, nbrs, lookupKey]
  | cons e t ih =>
    rw [unsettledDeg_cons, unsettledDeg_cons, nbrs_cons]
    by_cases he : e.1 = cur
    · have h2 : e.1 ∈ s ++ [cur] :=
        List.mem_append.mpr (Or.inr (by rw [he]; exact List.mem_singleton.mpr rfl))
      rw [if_pos he, if_pos h2, if_neg (he ▸ hc)]
      have hmono : unsettledDeg (V := V) t (s ++ [cur]) ≤ unsettledDeg t s :=
        unsettledDeg_mono (fun v hv => List.mem_append.mpr (Or.inl hv))
      omega
    · rw [if_neg he]
      have hiff : (e.1 ∈ s ++ [cur]) ↔ e.1 ∈ s := by
        rw [List.mem_append, List.mem_singleton]
        exact ⟨fun h => h.resolve_right he, Or.inl⟩
      by_cases h1 : e.1 ∈ s
      · rw [if_pos h1, if_pos (hiff.mpr h1)]
        omega
      · rw [if_neg h1, if_neg (fun h => h1 (hiff.mp h))]
        omega

lemma relaxOne_s (cur : V) (st : DState V) (e : V × ℕ) :
    (relaxOne cur st e).s = st.s := by
  unfold relaxOne
  cases st.dist cur with
  | none => rfl
  | some dc =>
    dsimp only
    split <;> rfl

lemma relaxOne_h_len (cur : V) (st : DState V) (e : V × ℕ) :
    (relaxOne cur st e).h.length ≤ st.h.length + 1 := by
  unfold relaxOne
  cases st.dist cur with
  | none => exact Nat.le_succ _
  | some dc =>
    dsimp only
    split
    · rw [List.orderedInsert_length]
    · exact Nat.le_succ _

lemma foldl_relax_s (cur : V) (l : List (V × ℕ)) (st : DState V) :
    (l.foldl (relaxOne cur) st).s = st.s := by
  induction l generalizing st with
  | nil => rfl
  | cons e t ih => rw [List.foldl_cons, ih, relaxOne_s]

lemma foldl_relax_h_len (cur : V) (l : List (V × ℕ)) (st : DState V) :
    (l.foldl (relaxOne cur) st).h.length ≤ st.h.length + l.length := by
  induction l generalizing st with
  | nil => exact Nat.le_refl _
  | cons e t ih =>
    rw [List.foldl_cons]
    calc (t.foldl (relaxOne cur) (relaxOne cur st e)).h.length
        ≤ (relaxOne cur st e).h.length + t.length := ih _
      _ ≤ st.h.length + 1 + t.length := Nat.add_le_add_right (relaxOne_h_len cur st e) _
      _ = st.h.length + (e :: t).length := by simp [List.length_cons]; omega

lemma dmeasure_dstep {M : KMap V} {st : DState V} (hne : st.h ≠ []) :
    dmeasure M (dstep M st) < dmeasure M st := by
  unfold dstep
  cases hh : st.h with
  | nil => exact absurd hh hne
  | cons x rest =>
    obtain ⟨d, cur⟩ := x
    dsimp only
    by_cases hc : cur ∈ st.s
    · rw [if_pos hc]
      unfold dmeasure
      rw [hh]
      simp only [List.length_cons]
      omega
    · rw [if_neg hc]
      unfold dmeasure
      have hs := foldl_relax_s cur (nbrs M cur) { st with h := rest, s := st.s ++ [cur] }
      have hl := foldl_relax_h_len cur (nbrs M cur) { st with h := rest, s := st.s ++ [cur] }
      have ha : ({ st with h := rest, s := st.s ++ [cur] } : DState V).h.length
          = rest.length := rfl
      rw [ha] at hl
      rw [hs]
      have hdeg := unsettledDeg_snoc (M := M) hc
      rw [hh]
      simp only [List.length_cons]
      omega

/-- With fuel at least the measure, the loop drains the heap. -/
lemma dloop_halts {M : KMap V} : ∀ {n : ℕ} {st : DState V}, dmeasure M st ≤ n →
    (dloop M n st).h = [] := by
  intro n
  induction n with
  | zero =>
    intro st hm
    unfold dmeasure at hm
    have h0 : st.h.length = 0 := by omega
    exact List.length_eq_zero.mp h0
  | succ n ih =>
    intro st hm
    rw [dloop]
    cases hh : st.h with
    | nil => exact hh
    | cons x rest =>
      have hlt := dmeasure_dstep (M := M)
        (show st.h ≠ [] by rw [hh]; exact List.cons_ne_nil _ _)
      apply ih
      omega

/-- Any property preserved by `dstep` transports along the loop. -/
lemma dloop_pres {M : KMap V} (P : DState V → Prop)
    (hstep : ∀ st, P st → P (dstep M st)) :
    ∀ (n : ℕ) (st : DState V), P st → P (dloop M n st) := by
  intro n
  induction n with
  | zero => intro st h; exact h
  | succ n ih =>
    intro st h
    rw [dloop]
    cases hh : st.h with
    | nil => exact h
    | cons x rest => exact ih _ (hstep st h)

lemma dmeasure_init (M : KMap V) (o : V) :
    dmeasure M (initDState o) ≤ dijkstraFuel M := by
  unfold dmeasure initDState dijkstraFuel unsettledDeg totalDeg
  simp only [List.length_singleton]
  have : ((M.filter (fun e => decide (e.1 ∉ ([] : List V)))).map (fun e => e.2.length)).sum ≤
      (M.map (fun e => e.2.length)).sum := by
    have hf : M.filter (fun e => decide (e.1 ∉ ([] : List V))) = M := by
      apply List.filter_eq_self.mpr
      intro a _
      simp
    rw [hf]
  omega

end Termination

/-! ## The planner loop invariant

The classic Dijkstra invariants, phrased for the lazy (skip-settled) variant
the source implements: the heap is sorted; every tentative distance is
witnessed by a route of no greater weight; every unsettled node with a
tentative distance has a live heap entry carrying it; heap entries never
under-cut the tentative distances; settled distances are optimal; every edge
out of a settled node has been relaxed; and the parent pointers record a
recorded edge, never under-cut the distances, and strictly descend the
settling order. -/

section Invariant

variable [LinearOrder V]

structure DInv (M : KMap V) (o : V) (st : DState V) : Prop where
  sorted : st.h.Sorted pairLe
  dist_o : st.dist o = some 0
  reach : ∀ v d, st.dist v = some d → ∃ p, IsRoute M o v p ∧ chainW M p ≤ d
  inheap : ∀ v, st.dist v ≠ none → v ∉ st.s → ∃ d, st.dist v = some d ∧ (d, v) ∈ st.h
  hdist : ∀ d v, (d, v) ∈ st.h → ∃ dv, st.dist v = some dv ∧ dv ≤ d
  sdist : ∀ v ∈ st.s, st.dist v ≠ none
  opt : ∀ v ∈ st.s, ∀ d, st.dist v = some d → ∀ p, IsRoute M o v p → d ≤ chainW M p
  relaxed : ∀ v ∈ st.s, ∀ e ∈ nbrs M v, ∀ dv, st.dist v = some dv →
      ∃ dn, st.dist e.1 = some dn ∧ dn ≤ dv + e.2
  par_o : st.parent o = none
  par : ∀ v u, st.parent v = some u → u ∈ st.s ∧
      ∃ w, edgeW M u v = some w ∧
        ∃ dv du, st.dist v = some dv ∧ st.dist u = some du ∧ du + w ≤ dv
  par_rank : ∀ v u, st.parent v = some u → v ∈ st.s → st.s.indexOf u < st.s.indexOf v
  par_ex : ∀ v, st.dist v ≠ none → v ≠ o → st.parent v ≠ none
  nodup : st.s.Nodup

/-- The invariant carried through the relaxation fold for the node `cur`
being settled: like `DInv` but with the relaxation obligation for `cur`
restricted to the prefix `done` of its neighbour list already processed. -/
structure MidInv (M : KMap V) (o cur : V) (dcur : ℕ) (done : List (V × ℕ))
    (st : DState V) : Prop where
  sorted : st.h.Sorted pairLe
  dist_o : st.dist o = some 0
  reach : ∀ v d, st.dist v = some d → ∃ p, IsRoute M o v p ∧ chainW M p ≤ d
  inheap : ∀ v, st.dist v ≠ none → v ∉ st.s → ∃ d, st.dist v = some d ∧ (d, v) ∈ st.h
  hdist : ∀ d v, (d, v) ∈ st.h → ∃ dv, st.dist v = some dv ∧ dv ≤ d
  sdist : ∀ v ∈ st.s, st.dist v ≠ none
  opt : ∀ v ∈ st.s, ∀ d, st.dist v = some d → ∀ p, IsRoute M o v p → d ≤ chainW M p
  relaxed_old : ∀ v ∈ st.s, v ≠ cur → ∀ e ∈ nbrs M v, ∀ dv, st.dist v = some dv →
      ∃ dn, st.dist e.1 = some dn ∧ dn ≤ dv + e.2
  relaxed_cur : ∀ e ∈ done, ∃ dn, st.dist e.1 = some dn ∧ dn ≤ dcur + e.2
  dist_cur : st.dist cur = some dcur
  cur_mem : cur ∈ st.s
  par_o : st.parent o = none
  par : ∀ v u, st.parent v = some u → u ∈ st.s ∧
      ∃ w, edgeW M u v = some w ∧
        ∃ dv du, st.dist v = some dv ∧ st.dist u = some du ∧ du + w ≤ dv
  par_rank : ∀ v u, st.parent v = some u → v ∈ st.s → st.s.indexOf u < st.s.indexOf v
  par_ex : ∀ v, st.dist v ≠ none → v ≠ o → st.parent v ≠ none
  nodup : st.s.Nodup

/-- Relaxing one more neighbour of `cur` preserves the fold invariant. -/
lemma relaxOne_mid {M : KMap V} (Hnb : NbrKeysNodup M) {o cur : V} {dcur : ℕ}
    {done : List (V × ℕ)} {st : DState V} {e : V × ℕ} (he : e ∈ nbrs M cur)
    (inv : MidInv M o cur dcur done st) :
    MidInv M o cur dcur (done ++ [e]) (relaxOne cur st e) := by
  have hedge : edgeW M cur e.1 = some e.2 := edgeW_of_mem_nbrs Hnb he
  unfold relaxOne
  rw [inv.dist_cur]
  dsimp only
  set cand := dcur + e.2 with hcand
  -- does the update fire?
  by_cases hupd : (match st.dist e.1 with
      | none => true
      | some dn => decide (cand < dn)) = true
  · rw [if_pos hupd]
    -- the update fires: `e.1` gains distance `cand` and parent `cur`.
    -- First: the updated node is strictly improved, hence not settled,
    -- not `cur`, and not the origin.
    have himp : ∀ dn, st.dist e.1 = some dn → cand < dn := by
      intro dn hdn
      rw [hdn] at hupd
      simpa using hupd
    have hbs : e.1 ∉ st.s := by
      intro hmem
      cases hdn : st.dist e.1 with
      | none => exact inv.sdist e.1 hmem hdn
      | some dn =>
        obtain ⟨p, hp, hpw⟩ := inv.reach cur dcur inv.dist_cur
        have hroute : IsRoute M o e.1 (p ++ [e.1]) := isRoute_snoc hp (adj_of_edgeW hedge)
        have hw : chainW M (p ++ [e.1]) = chainW M p + e.2 := by
          obtain ⟨_, _, hlast⟩ := hp
          rw [chainW_append_last hlast, wOf_of_edgeW hedge]
        have := inv.opt e.1 hmem dn hdn _ hroute
        rw [hw] at this
        have := himp dn hdn
        omega
    have hbo : e.1 ≠ o := by
      intro hq
      have := himp 0 (by rw [hq, inv.dist_o])
      omega
    have hbcur : e.1 ≠ cur := by
      intro hq
      have := himp dcur (by rw [hq, inv.dist_cur])
      omega
    refine ⟨?_, ?_, ?_, ?_, ?_, ?_, ?_, ?_, ?_, ?_, ?_, ?_, ?_, ?_, ?_, ?_⟩
    · exact inv.sorted.orderedInsert _ _
    · dsimp only
      rw [if_neg (Ne.symm hbo)]
      exact inv.dist_o
    · intro v d hv
      dsimp only at hv
      by_cases hvb : v = e.1
      · subst hvb
        rw [if_pos rfl] at hv
        cases hv
        obtain ⟨p, hp, hpw⟩ := inv.reach cur dcur inv.dist_cur
        refine ⟨p ++ [e.1], isRoute_snoc hp (adj_of_edgeW hedge), ?_⟩
        obtain ⟨_, _, hlast⟩ := hp
        rw [chainW_append_last hlast, wOf_of_edgeW hedge]
        omega
      · rw [if_neg hvb] at hv
        exact inv.reach v d hv
    · intro v hv hvs
      dsimp only at hv ⊢
      by_cases hvb : v = e.1
      · subst hvb
        refine ⟨cand, by rw [if_pos rfl], ?_⟩
        exact (List.mem_orderedInsert _).mpr (Or.inl rfl)
      · rw [if_neg hvb] at hv ⊢
        obtain ⟨d, hd, hmem⟩ := inv.inheap v hv hvs
        exact ⟨d, hd, (List.mem_orderedInsert _).mpr (Or.inr hmem)⟩
    · intro d v hmem
      dsimp only at hmem ⊢
      rcases (List.mem_orderedInsert _).mp hmem with hx | hx
      · cases hx
        exact ⟨cand, by rw [if_pos rfl], le_refl _⟩
      · obtain ⟨dv, hdv, hle⟩ := inv.hdist d v hx
        by_cases hvb : v = e.1
        · subst hvb
          refine ⟨cand, by rw [if_pos rfl], ?_⟩
          have := himp dv hdv
          omega
        · exact ⟨dv, by rw [if_neg hvb]; exact hdv, hle⟩
    · intro v hv
      dsimp only
      rw [if_neg (fun hq => hbs (by rw [← hq]; exact hv))]
      exact inv.sdist v hv
    · intro v hv d hd p hp
      dsimp only at hd
      rw [if_neg (fun hq => hbs (by rw [← hq]; exact hv))] at hd
      exact inv.opt v hv d hd p hp
    · intro v hv hvc f hf dv hdv
      dsimp only at hdv ⊢
      rw [if_neg (fun hq => hbs (by rw [← hq]; exact hv))] at hdv
      obtain ⟨dn, hdn, hle⟩ := inv.relaxed_old v hv hvc f hf dv hdv
      by_cases hfb : f.1 = e.1
      · refine ⟨cand, by rw [if_pos hfb], ?_⟩
        rw [hfb] at hdn
        have := himp dn hdn
        omega
      · exact ⟨dn, by rw [if_neg hfb]; exact hdn, hle⟩
    · intro f hf
      dsimp only
      rcases List.mem_append.mp hf with hf | hf
      · obtain ⟨dn, hdn, hle⟩ := inv.relaxed_cur f hf
        by_cases hfb : f.1 = e.1
        · refine ⟨cand, by rw [if_pos hfb], ?_⟩
          rw [hfb] at hdn
          have := himp dn hdn
          omega
        · exact ⟨dn, by rw [if_neg hfb]; exact hdn, hle⟩
      · rw [List.mem_singleton] at hf
        subst hf
        exact ⟨cand, by rw [if_pos rfl], le_refl _⟩
    · dsimp only
      rw [if_neg (Ne.symm hbcur)]
      exact inv.dist_cur
    · exact inv.cur_mem
    · dsimp only
      rw [if_neg (Ne.symm hbo)]
      exact inv.par_o
    · intro v u hvu
      dsimp only at hvu ⊢
      by_cases hvb : v = e.1
      · rw [if_pos hvb] at hvu
        cases hvu
        refine ⟨inv.cur_mem, e.2, hvb ▸ hedge, cand, dcur, by rw [if_pos hvb],
          by rw [if_neg (Ne.symm hbcur)]; exact inv.dist_cur, le_refl _⟩
      · rw [if_neg hvb] at hvu
        obtain ⟨hus, w, hw, dv, du, hdv, hdu, hle⟩ := inv.par v u hvu
        have hub : u ≠ e.1 := fun hq => hbs (hq ▸ hus)
        exact ⟨hus, w, hw, dv, du, by rw [if_neg hvb]; exact hdv,
          by rw [if_neg hub]; exact hdu, hle⟩
    · intro v u hvu hv
      dsimp only at hvu
      rw [if_neg (fun hq => hbs (by rw [← hq]; exact hv))] at hvu
      exact inv.par_rank v u hvu hv
    · intro v hv hvo
      dsimp only at hv ⊢
      by_cases hvb : v = e.1
      · rw [if_pos hvb]
        exact Option.some_ne_none cur
      · rw [if_neg hvb] at hv ⊢
        exact inv.par_ex v hv hvo
    · exact inv.nodup
  · rw [if_neg hupd]
    -- no update: the state is unchanged; only the `relaxed_cur` obligation
    -- grows, discharged by the failed improvement test.
    cases hdn : st.dist e.1 with
    | none => rw [hdn] at hupd; simp at hupd
    | some dn =>
      rw [hdn] at hupd
      have hge : dcur + e.2 ≥ dn := by
        by_contra hq
        exact hupd (by simpa using hq)
      refine ⟨inv.sorted, inv.dist_o, inv.reach, inv.inheap, inv.hdist, inv.sdist, inv.opt,
        inv.relaxed_old, ?_, inv.dist_cur, inv.cur_mem, inv.par_o, inv.par, inv.par_rank,
        inv.par_ex, inv.nodup⟩
      intro f hf
      rcases List.mem_append.mp hf with hf | hf
      · exact inv.relaxed_cur f hf
      · rw [List.mem_singleton] at hf
        subst hf
        exact ⟨dn, hdn, hge⟩

/-- The fold invariant transports along the whole neighbour list. -/
lemma foldl_mid {M : KMap V} (Hnb : NbrKeysNodup M) {o cur : V} {dcur : ℕ} :
    ∀ (l done : List (V × ℕ)) (st : DState V), (∀ f ∈ l, f ∈ nbrs M cur) →
      MidInv M o cur dcur done st →
      MidInv M o cur dcur (done ++ l) (l.foldl (relaxOne cur) st) := by
  intro l
  induction l with
  | nil =>
    intro done st _ inv
    rw [List.append_nil]
    exact inv
  | cons e t ih =>
    intro done st hmem inv
    rw [List.foldl_cons]
    have h1 := relaxOne_mid Hnb (hmem e (List.mem_cons_self e t)) inv
    have h2 := ih (done ++ [e]) (relaxOne cur st e)
      (fun f hf => hmem f (List.mem_cons_of_mem e hf)) h1
    rwa [List.append_assoc, List.singleton_append] at h2

/-- The head of the heap bounds the weight of every route to an unsettled
node — the heart of Dijkstra's exchange argument.  A route to an unsettled
node must leave the settled region at an already-relaxed edge, whose target
holds a live heap entry no larger than the route's weight; the head of the
sorted heap is below that entry. -/
lemma frontier_bound {M : KMap V} (Hnb : NbrKeysNodup M) {o : V} {st : DState V}
    {d : ℕ} {c0 : V} {rest : List (ℕ × V)} (inv : DInv M o st)
    (hh : st.h = (d, c0) :: rest) :
    ∀ (p : List V) (v : V), IsRoute M o v p → v ∉ st.s → d ≤ chainW M p := by
  have hmin : ∀ d' v', (d', v') ∈ st.h → d ≤ d' := by
    intro d' v' hmem
    rw [hh] at hmem
    rcases List.mem_cons.mp hmem with hx | hx
    · cases hx
      exact le_refl _
    · have := List.rel_of_sorted_cons (hh ▸ inv.sorted) _ hx
      rcases this with h | ⟨h, _⟩
      · exact le_of_lt h
      · exact le_of_eq h
  suffices H : ∀ (n : ℕ) (p : List V) (v : V), p.length ≤ n → IsRoute M o v p →
      v ∉ st.s → d ≤ chainW M p by
    intro p v h1 h2
    exact H p.length p v (le_refl _) h1 h2
  intro n
  induction n with
  | zero =>
    intro p v hl hr _
    obtain ⟨_, hh', _⟩ := hr
    cases p with
    | nil => simp at hh'
    | cons a t => simp at hl
  | succ n ih =>
    intro p v hl hr hv
    rcases isRoute_cases hr with ⟨hp, hvo⟩ | ⟨q, u, hqne, hp, hu, hq, hadj, hw⟩
    · subst hvo
      subst hp
      have hdo : st.dist v ≠ none := by rw [inv.dist_o]; exact Option.some_ne_none 0
      obtain ⟨dv, hdv, hmem⟩ := inv.inheap v hdo hv
      rw [inv.dist_o] at hdv
      cases hdv
      have := hmin 0 v hmem
      have hcw : chainW M [v] = 0 := rfl
      omega
    · subst hp
      by_cases hus : u ∈ st.s
      · have hduq := inv.sdist u hus
        cases hdu : st.dist u with
        | none => exact absurd hdu hduq
        | some du =>
          have hopt := inv.opt u hus du hdu q hq
          obtain ⟨w, hwm⟩ : ∃ w, edgeW M u v = some w := by
            unfold Adj at hadj
            cases hq : edgeW M u v with
            | none => exact absurd hq hadj
            | some w => exact ⟨w, rfl⟩
          obtain ⟨dn, hdn, hdnle⟩ := inv.relaxed u hus (v, w) (edgeW_mem hwm) du hdu
          obtain ⟨dn', hdn', hmem⟩ := inv.inheap v (by rw [hdn]; exact Option.some_ne_none _) hv
          rw [hdn] at hdn'
          cases hdn'
          have := hmin dn v hmem
          rw [hw, wOf_of_edgeW hwm]
          omega
      · have hql : q.length ≤ n := by
          have := List.length_append q [v]
          simp only [List.length_singleton] at this
          omega
        have := ih q u hql hq hus
        rw [hw]
        omega

/-- One loop iteration preserves the invariant. -/
lemma dstep_dinv {M : KMap V} (Hnb : NbrKeysNodup M) {o : V} {st : DState V}
    (inv : DInv M o st) : DInv M o (dstep M st) := by
  unfold dstep
  cases hh : st.h with
  | nil => exact inv
  | cons x rest =>
    obtain ⟨d, cur⟩ := x
    dsimp only
    by_cases hc : cur ∈ st.s
    · rw [if_pos hc]
      -- skip case: a stale entry for an already-settled node is dropped.
      have hsorted : st.h.Sorted pairLe := inv.sorted
      refine ⟨?_, inv.dist_o, inv.reach, ?_, ?_, inv.sdist, inv.opt, inv.relaxed,
        inv.par_o, inv.par, inv.par_rank, inv.par_ex, inv.nodup⟩
      · exact (hh ▸ hsorted).of_cons
      · intro v hv hvs
        obtain ⟨dv, hdv, hmem⟩ := inv.inheap v hv hvs
        rw [hh] at hmem
        rcases List.mem_cons.mp hmem with hx | hx
        · exfalso
          cases hx
          exact hvs hc
        · exact ⟨dv, hdv, hx⟩
      · intro dv v hmem
        exact inv.hdist dv v (by rw [hh]; exact List.mem_cons_of_mem _ hmem)
    · rw [if_neg hc]
      -- settle case: `cur` enters `s` and its edges are relaxed.
      obtain ⟨dcur, hdcur, hdcle⟩ := inv.hdist d cur (by rw [hh]; exact List.mem_cons_self _ _)
      have hfront := frontier_bound Hnb inv hh
      have hmid : MidInv M o cur dcur []
          { st with h := rest, s := st.s ++ [cur] } := by
        refine ⟨?_, inv.dist_o, inv.reach, ?_, ?_, ?_, ?_, ?_, ?_, hdcur, ?_, inv.par_o,
          ?_, ?_, inv.par_ex, ?_⟩
        · exact (hh ▸ inv.sorted).of_cons
        · intro v hv hvs
          dsimp only at hvs ⊢
          have hvs' : v ∉ st.s := fun hq => hvs (List.mem_append.mpr (Or.inl hq))
          have hvc : v ≠ cur := fun hq =>
            hvs (List.mem_append.mpr (Or.inr (by rw [hq]; exact List.mem_singleton.mpr rfl)))
          obtain ⟨dv, hdv, hmem⟩ := inv.inheap v hv hvs'
          rw [hh] at hmem
          rcases List.mem_cons.mp hmem with hx | hx
          · exfalso
            cases hx
            exact hvc rfl
          · exact ⟨dv, hdv, hx⟩
        · intro dv v hmem
          exact inv.hdist dv v (by rw [hh]; exact List.mem_cons_of_mem _ hmem)
        · intro v hv
          dsimp only at hv
          rcases List.mem_append.mp hv with hx | hx
          · exact inv.sdist v hx
          · rw [List.mem_singleton] at hx
            subst hx
            rw [hdcur]
            exact Option.some_ne_none _
        · intro v hv dd hdd p hp
          dsimp only at hv
          rcases List.mem_append.mp hv with hx | hx
          · exact inv.opt v hx dd hdd p hp
          · rw [List.mem_singleton] at hx
            subst hx
            rw [hdcur] at hdd
            cases hdd
            exact le_trans hdcle (hfront p v hp hc)
        · intro v hv hvc f hf dv hdv
          dsimp only at hv
          rcases List.mem_append.mp hv with hx | hx
          · exact inv.relaxed v hx f hf dv hdv
          · rw [List.mem_singleton] at hx
            exact absurd hx hvc
        · intro f hf
          simp at hf
        · exact List.mem_append.mpr (Or.inr (List.mem_singleton.mpr rfl))
        · intro v u hvu
          obtain ⟨hus, hrest⟩ := inv.par v u hvu
          exact ⟨List.mem_append.mpr (Or.inl hus), hrest⟩
        · intro v u hvu hv
          dsimp only at hv ⊢
          obtain ⟨hus, _⟩ := inv.par v u hvu
          rcases List.mem_append.mp hv with hx | hx
          · rw [List.indexOf_append_of_mem hus, List.indexOf_append_of_mem hx]
            exact inv.par_rank v u hvu hx
          · rw [List.mem_singleton] at hx
            subst hx
            rw [List.indexOf_append_of_mem hus, List.indexOf_append_of_not_mem hc]
            have h1 : List.indexOf u st.s < st.s.length := List.indexOf_lt_length.mpr hus
            have h2 : List.indexOf v [v] = 0 := by simp
            omega
        · rw [List.nodup_append]
          refine ⟨inv.nodup, List.nodup_singleton cur, ?_⟩
          intro a ha hb
          rw [List.mem_singleton] at hb
          subst hb
          exact hc ha
      have hfin := foldl_mid Hnb (nbrs M cur) [] _ (fun f hf => hf) hmid
      rw [List.nil_append] at hfin
      refine ⟨hfin.sorted, hfin.dist_o, hfin.reach, hfin.inheap, hfin.hdist, hfin.sdist,
        hfin.opt, ?_, hfin.par_o, hfin.par, hfin.par_rank, hfin.par_ex, hfin.nodup⟩
      intro v hv f hf dv hdv
      by_cases hvc : v = cur
      · subst hvc
        obtain ⟨dn, hdn, hle⟩ := hfin.relaxed_cur f hf
        rw [hfin.dist_cur] at hdv
        cases hdv
        exact ⟨dn, hdn, hle⟩
      · exact hfin.relaxed_old v hv hvc f hf dv hdv

/-- The initial planner state satisfies the invariant. -/
lemma init_dinv (M : KMap V) (o : V) : DInv M o (initDState o) := by
  refine ⟨?_, ?_, ?_, ?_, ?_, ?_, ?_, ?_, ?_, ?_, ?_, ?_, ?_⟩
  · exact List.sorted_singleton _
  · rw [initDState]
    dsimp only
    rw [if_pos rfl]
  · intro v dd hv
    rw [initDState] at hv
    dsimp only at hv
    by_cases hvo : v = o
    · subst hvo
      rw [if_pos rfl] at hv
      cases hv
      exact ⟨[v], isRoute_singleton M v, le_refl _⟩
    · rw [if_neg hvo] at hv
      cases hv
  · intro v hv _
    rw [initDState] at hv ⊢
    dsimp only at hv ⊢
    by_cases hvo : v = o
    · subst hvo
      rw [if_pos rfl]
      exact ⟨0, rfl, List.mem_singleton.mpr rfl⟩
    · rw [if_neg hvo] at hv
      exact absurd rfl hv
  · intro dd v hmem
    rw [initDState] at hmem ⊢
    dsimp only at hmem ⊢
    rw [List.mem_singleton] at hmem
    cases hmem
    rw [if_pos rfl]
    exact ⟨0, rfl, le_refl _⟩
  · intro v hv
    rw [initDState] at hv
    simp at hv
  · intro v hv
    rw [initDState] at hv
    simp at hv
  · intro v hv
    rw [initDState] at hv
    simp at hv
  · rfl
  · intro v u hvu
    rw [initDState] at hvu
    cases hvu
  · intro v u hvu
    rw [initDState] at hvu
    cases hvu
  · intro v hv hvo
    rw [initDState] at hv ⊢
    dsimp only at hv ⊢
    rw [if_neg hvo] at hv
    exact absurd rfl hv
  · exact List.nodup_nil

/-! ## Reading the final planner state -/

/-- Once the heap is drained, every node carrying a distance is settled. -/
lemma final_mem_s {M : KMap V} {o : V} {F : DState V} (inv : DInv M o F)
    (hF : F.h = []) : ∀ v, F.dist v ≠ none → v ∈ F.s := by
  intro v hv
  by_contra hvs
  obtain ⟨d, _, hmem⟩ := inv.inheap v hv hvs
  rw [hF] at hmem
  simp at hmem

/-- Once the heap is drained, every node that a route reaches carries a
distance. -/
lemma route_dist_some {M : KMap V} {o : V} {F : DState V} (inv : DInv M o F)
    (hF : F.h = []) :
    ∀ (p : List V) (v : V), IsRoute M o v p → F.dist v ≠ none := by
  suffices H : ∀ (n : ℕ) (p : List V) (v : V), p.length ≤ n → IsRoute M o v p →
      F.dist v ≠ none by
    intro p v hp
    exact H p.length p v (le_refl _) hp
  intro n
  induction n with
  | zero =>
    intro p v hl hr
    obtain ⟨_, hh', _⟩ := hr
    cases p with
    | nil => simp at hh'
    | cons a t => simp at hl
  | succ n ih =>
    intro p v hl hr
    rcases isRoute_cases hr with ⟨hp, hvo⟩ | ⟨q, u, hqne, hp, hu, hq, hadj, hw⟩
    · subst hvo
      rw [inv.dist_o]
      exact Option.some_ne_none 0
    · have hql : q.length ≤ n := by
        subst hp
        have := List.length_append q [v]
        simp only [List.length_singleton] at this
        omega
      have hdu := ih q u hql hq
      have hus : u ∈ F.s := final_mem_s inv hF u hdu
      cases hdu' : F.dist u with
      | none => exact absurd hdu' hdu
      | some du =>
        obtain ⟨w, hwm⟩ : ∃ w, edgeW M u v = some w := by
          unfold Adj at hadj
          cases hq' : edgeW M u v with
          | none => exact absurd hq' hadj
          | some w => exact ⟨w, rfl⟩
        obtain ⟨dn, hdn, _⟩ := inv.relaxed u hus (v, w) (edgeW_mem hwm) du hdu'
        rw [hdn]
        exact Option.some_ne_none _

lemma walkParent_succ_none (par : V → Option V) (n : ℕ) (v : V) (h : par v = none) :
    walkParent par (n + 1) v = [v] := by
  rw [walkParent, h]

lemma walkParent_succ_some (par : V → Option V) (n : ℕ) (v u : V) (h : par v = some u) :
    walkParent par (n + 1) v = v :: walkParent par n u := by
  rw [walkParent, h]

/-- The reconstruction walk from any node carrying a distance reaches the
origin along recorded edges whose weights sum to that distance.  The fuel
only needs to exceed the node's settling index, since parent pointers
strictly descend the settling order. -/
lemma walk_spec {M : KMap V} {o : V} {F : DState V} (inv : DInv M o F)
    (hF : F.h = []) :
    ∀ (n : ℕ) (v : V), F.dist v ≠ none → F.s.indexOf v < n →
      (walkParent F.parent n v).head? = some v ∧
      (walkParent F.parent n v).getLast? = some o ∧
      IsChain M (walkParent F.parent n v).reverse ∧
      ∀ dv, F.dist v = some dv → chainW M (walkParent F.parent n v).reverse = dv := by
  intro n
  induction n with
  | zero =>
    intro v _ hlt
    omega
  | succ n ih =>
    intro v hv hlt
    have hvs : v ∈ F.s := final_mem_s inv hF v hv
    cases hp : F.parent v with
    | none =>
      have hvo : v = o := by
        by_contra hq
        exact inv.par_ex v hv hq hp
      subst hvo
      rw [walkParent_succ_none _ _ _ hp]
      refine ⟨rfl, rfl, List.chain'_singleton v, ?_⟩
      intro dv hdv
      rw [inv.dist_o] at hdv
      cases hdv
      rfl
    | some u =>
      obtain ⟨hus, w, hwm, dv0, du, hdv0, hdu, hle⟩ := inv.par v u hp
      -- the final distances satisfy the edge equation exactly
      obtain ⟨dn, hdn, hdnle⟩ := inv.relaxed u hus (v, w) (edgeW_mem hwm) du hdu
      rw [hdv0] at hdn
      cases hdn
      have heq : dv0 = du + w := le_antisymm hdnle hle
      have hrank := inv.par_rank v u hp hvs
      have hultn : F.s.indexOf u < n := by omega
      have hdu' : F.dist u ≠ none := by rw [hdu]; exact Option.some_ne_none _
      obtain ⟨ih1, ih2, ih3, ih4⟩ := ih u hdu' hultn
      rw [walkParent_succ_some _ _ _ _ hp]
      set L := walkParent F.parent n u with hL
      have hLne : L ≠ [] := by
        intro hq
        rw [hq] at ih1
        simp at ih1
      refine ⟨rfl, ?_, ?_, ?_⟩
      · cases hLcase : L with
        | nil => exact absurd hLcase hLne
        | cons x t =>
          rw [List.getLast?_cons_cons]
          rw [hLcase] at ih2
          exact ih2
      · rw [List.reverse_cons]
        rw [IsChain, List.chain'_append]
        refine ⟨ih3, List.chain'_singleton v, ?_⟩
        intro x hx y hy
        rw [List.getLast?_reverse, ih1] at hx
        cases hx
        simp only [List.head?_cons, Option.mem_def, Option.some.injEq] at hy
        cases hy
        exact adj_of_edgeW hwm
      · intro dv hdv
        rw [hdv0] at hdv
        cases hdv
        rw [List.reverse_cons]
        have hlast : L.reverse.getLast? = some u := by
          rw [List.getLast?_reverse]
          exact ih1
        rw [chainW_append_last hlast, wOf_of_edgeW hwm, ih4 du hdu, heq]

/-- The invariant holds of the drained final state of the planner loop. -/
lemma final_state_facts (M : KMap V) (Hnb : NbrKeysNodup M) (o : V) :
    DInv M o (dloop M (dijkstraFuel M) (initDState o)) ∧
      (dloop M (dijkstraFuel M) (initDState o)).h = [] :=
  ⟨dloop_pres (DInv M o) (fun _ h => dstep_dinv Hnb h) _ _ (init_dinv M o),
    dloop_halts (dmeasure_init M o)⟩

/-- Full characterisation of `_planPath` on a well-formed knowledge map:
the returned route is empty exactly when no route exists, and otherwise it
is a route from origin to destination of minimal total edge weight. -/
theorem planPath_spec (M : KMap V) (Hnb : NbrKeysNodup M) (o dst : V) :
    (planPath M o dst = [] ↔ ¬∃ p, IsRoute M o dst p) ∧
    ((∃ p, IsRoute M o dst p) →
      IsRoute M o dst (planPath M o dst) ∧
      ∀ q, IsRoute M o dst q → chainW M (planPath M o dst) ≤ chainW M q) := by
  obtain ⟨inv, hF⟩ := final_state_facts M Hnb o
  set F := dloop M (dijkstraFuel M) (initDState o) with hFdef
  have hplan : planPath M o dst =
      (match F.dist dst with
       | none => []
       | some _ => (walkParent F.parent (F.s.length + 1) dst).reverse) := rfl
  cases hd : F.dist dst with
  | none =>
    rw [hplan, hd]
    have hno : ¬∃ p, IsRoute M o dst p := by
      rintro ⟨p, hp⟩
      exact route_dist_some inv hF p dst hp (by rw [hd])
    exact ⟨⟨fun _ => hno, fun _ => rfl⟩, fun hex => absurd hex hno⟩
  | some dd =>
    rw [hplan, hd]
    have hdne : F.dist dst ≠ none := by rw [hd]; exact Option.some_ne_none _
    have hins : dst ∈ F.s := final_mem_s inv hF dst hdne
    have hidx : F.s.indexOf dst < F.s.length + 1 :=
      Nat.lt_succ_of_lt (List.indexOf_lt_length.mpr hins)
    obtain ⟨w1, w2, w3, w4⟩ := walk_spec inv hF (F.s.length + 1) dst hdne hidx
    set L := walkParent F.parent (F.s.length + 1) dst with hL
    have hLne : L ≠ [] := by
      intro hq
      rw [hq] at w1
      simp at w1
    have hroute : IsRoute M o dst L.reverse := by
      refine ⟨w3, ?_, ?_⟩
      · rw [List.head?_reverse]
        exact w2
      · rw [List.getLast?_reverse]
        exact w1
    have hrevne : L.reverse ≠ [] := by
      intro hq
      exact hLne (by rw [← List.reverse_reverse L, hq]; rfl)
    refine ⟨⟨fun hq => absurd hq hrevne, fun hq => absurd ⟨L.reverse, hroute⟩ hq⟩, ?_⟩
    intro _
    refine ⟨hroute, ?_⟩
    intro q hq
    rw [w4 dd hd]
    exact inv.opt dst hins dd hd q hq

end Invariant

/-! ## The taxi agent

State and operations of the `Taxi` class.  Python ints (times, prices, the
account, the ternary bid flag) are modelled by `ℤ`; node references by `V`.
The fare ledger `_availableFares` is a dict keyed by `(call time, origin)`,
modelled as an insertion-ordered association list with unique keys.  The
carried passenger is represented by its destination, the only field of the
fare object the taxi reads.  Node interactions (`pickupFare`, `dropoffFare`,
`occupy`, `vacate`, `turn`, `continueThrough`) and the world clock are
external collaborators; their responses enter as explicit oracle values. -/

section Taxi

variable [LinearOrder V]

/-- `FareInfo`: destination, price, ternary bid flag (−1 = no, 0 =
undecided, 1 = yes), allocation flag. -/
structure FareInfo (V : Type) where
  destination : V
  price : ℤ
  bid : ℤ
  allocated : Bool
deriving DecidableEq

/-- A freshly created ledger entry (`FareInfo.__init__`). -/
def FareInfo.fresh (destination : V) (price : ℤ) : FareInfo V :=
  ⟨destination, price, 0, false⟩

/-- The mutable state of a `Taxi`. -/
structure TaxiState (V : Type) where
  onDuty : Bool
  account : ℤ
  offDutyTime : ℤ
  loc : Option V
  direction : ℤ
  nextLoc : Option V
  nextDirection : ℤ
  passenger : Option V
  path : List V
  fares : List ((ℤ × V) × FareInfo V)
  map : KMap V
  maxFareWait : ℤ
deriving DecidableEq

/-- The fields of the constructed `Taxi` that the decision core touches
(`_account = 0`, no location, no pending transition, no passenger, empty
path and ledger). -/
def initTaxi (map : KMap V) (maxWait offDutyTime : ℤ) : TaxiState V where
  onDuty := false
  account := 0
  offDutyTime := offDutyTime
  loc := none
  direction := -1
  nextLoc := none
  nextDirection := -1
  passenger := none
  path := []
  fares := []
  map := map
  maxFareWait := maxWait

/-- Number of allocated ledger entries
(`len([fare for fare in self._availableFares.values() if fare.allocated])`). -/
def allocatedCount (fares : List ((ℤ × V) × FareInfo V)) : ℕ :=
  (fares.filter (fun f => f.2.allocated)).length

/-- Number of carried passengers (0 or 1). -/
def passCnt : Option V → ℕ
  | none => 0
  | some _ => 1

/-- Carried passengers plus allocated-but-uncollected ledger entries. -/
def commitCount (st : TaxiState V) : ℕ :=
  passCnt st.passenger + allocatedCount st.fares

/-- `_bidOnFare(time, origin, destination, price)`, a pure function of the
agent state it reads (`_map`, `_availableFares`, `_passenger`, `_account`,
`_maxFareWait`, `_loc.index`) and the world clock. -/
def bidOnFare (map : KMap V) (fares : List ((ℤ × V) × FareInfo V))
    (passenger : Option V) (account maxFareWait : ℤ) (locIdx : V)
    (simTime time : ℤ) (origin destination : V) (price : ℤ) : Bool :=
  let NoCurrentPassengers : Bool := passenger.isNone
  let NoAllocatedFares : Bool := decide (allocatedCount fares = 0)
  let TimeToOrigin : ℤ := ((planPath map locIdx origin).length : ℤ) * 2
  let TimeToDestination : ℤ := ((planPath map origin destination).length : ℤ) * 2
  let FiniteTimeToOrigin : Bool := decide (TimeToOrigin > 0)
  let FiniteTimeToDestination : Bool := decide (TimeToDestination > 0)
  let CanAffordToDrive : Bool := decide (account > TimeToOrigin)
  let FairPriceToDestination : Bool := decide (price > TimeToOrigin + TimeToDestination)
  let PriceBetterThanCost : Bool := FairPriceToDestination && FiniteTimeToDestination
  let FareExpiryInFuture : Bool := decide (maxFareWait > simTime - time)
  let EnoughTimeToReachFare : Bool := decide (maxFareWait - simTime + time > TimeToOrigin)
  let SufficientDrivingTime : Bool := FiniteTimeToOrigin && EnoughTimeToReachFare
  let WillArriveOnTime : Bool := FareExpiryInFuture && SufficientDrivingTime
  let NotCurrentlyBooked : Bool := NoCurrentPassengers && NoAllocatedFares
  let CloseEnough : Bool := CanAffordToDrive && WillArriveOnTime
  let Worthwhile : Bool := PriceBetterThanCost && NotCurrentlyBooked
  CloseEnough && Worthwhile

/-! ### Protocol handler (`recvMsg`) -/

/-- Python dict assignment: replacing an existing key keeps its position,
a new key is appended. -/
def upsert {α β : Type} [DecidableEq α] : List (α × β) → α → β → List (α × β)
  | [], k, b => [(k, b)]
  | e :: t, k, b => if e.1 = k then (k, b) :: t else e :: upsert t k b

/-- `FARE_ADVICE`: `self._availableFares[callTime, origin] = FareInfo(destination, price)`
with `callTime = self._world.simTime`. -/
def recvAdvice (st : TaxiState V) (simTime : ℤ) (origin destination : V) (price : ℤ) :
    TaxiState V :=
  { st with fares := upsert st.fares (simTime, origin) (FareInfo.fresh destination price) }

/-- `FARE_ALLOC` body: scan the ledger in order; on the first entry whose
origin and destination both match, set its allocation flag and return. -/
def allocFirst : List ((ℤ × V) × FareInfo V) → V → V → List ((ℤ × V) × FareInfo V)
  | [], _, _ => []
  | e :: t, origin, destination =>
    if e.1.2 = origin ∧ e.2.destination = destination then
      (e.1, { e.2 with allocated := true }) :: t
    else e :: allocFirst t origin destination

def recvAlloc (st : TaxiState V) (origin destination : V) : TaxiState V :=
  { st with fares := allocFirst st.fares origin destination }

/-- `FARE_PAY`: credit the account. -/
def recvPay (st : TaxiState V) (amount : ℤ) : TaxiState V :=
  { st with account := st.account + amount }

/-- `FARE_CANCEL` body: delete the first allocated entry matching the
origin and return. -/
def cancelFirst : List ((ℤ × V) × FareInfo V) → V → List ((ℤ × V) × FareInfo V)
  | [], _ => []
  | e :: t, origin =>
    if e.1.2 = origin ∧ e.2.allocated = true then t
    else e :: cancelFirst t origin

def recvCancel (st : TaxiState V) (origin : V) : TaxiState V :=
  { st with fares := cancelFirst st.fares origin }

/-- The four dispatcher message kinds. -/
inductive Msg (V : Type) where
  | advice (origin destination : V) (price : ℤ)
  | alloc (origin destination : V)
  | pay (amount : ℤ)
  | cancel (origin : V)

/-- `recvMsg` dispatch. -/
def recvMsg (st : TaxiState V) (simTime : ℤ) : Msg V → TaxiState V
  | .advice o d p => recvAdvice st simTime o d p
  | .alloc o d => recvAlloc st o d
  | .pay a => recvPay st a
  | .cancel o => recvCancel st o

/-! ### The per-tick decision routine (`clockTick`) -/

/-- External responses a tick may consume: the result of
`self._loc.dropoffFare(...)` and the results of the successive
`self._loc.pickupFare(...)` calls (by call index; a successful pickup
returns the fare, of which the taxi reads the destination). -/
structure TickOracle (V : Type) where
  dropoffOk : Bool
  pickup : ℕ → Option V

/-- Result of the ledger sweep: the processed ledger (bid flags updated),
the passenger and path after the sweep, the keys collected in
`faresToRemove`, the emitted bids, the number of pickup attempts, and — as
an observation for stating properties — the keys removed because a pickup
succeeded. -/
structure SweepRes (V : Type) where
  fares : List ((ℤ × V) × FareInfo V)
  passenger : Option V
  path : List V
  toRemove : List (ℤ × V)
  picked : List (ℤ × V)
  bids : List V
  calls : ℕ

/-- The `for fare in self._availableFares.items():` loop, threading the
mid-sweep passenger, path, removal list and bid mutations in ledger order.
`done` is the processed prefix; `_bidOnFare` reads the full current ledger
(`done ++ e :: todo`). -/
def sweepGo (map : KMap V) (maxW acct simTime : ℤ) (l : V) (orc : ℕ → Option V) :
    List ((ℤ × V) × FareInfo V) → List ((ℤ × V) × FareInfo V) → Option V → List V →
    List (ℤ × V) → List (ℤ × V) → List V → ℕ → SweepRes V
  | done, [], pass, path, rem, picked, bids, calls =>
    ⟨done, pass, path, rem, picked, bids, calls⟩
  | done, e :: todo, pass, path, rem, picked, bids, calls =>
    let origin := e.1.2
    if e.2.allocated = true ∧ pass = none then
      if l = origin then
        match orc calls with
        | some pdest =>
          sweepGo map maxW acct simTime l orc (done ++ [e]) todo (some pdest)
            (planPath map l pdest) (rem ++ [e.1]) (picked ++ [e.1]) bids (calls + 1)
        | none =>
          sweepGo map maxW acct simTime l orc (done ++ [e]) todo none path rem picked bids
            (calls + 1)
      else if path = [] then
        sweepGo map maxW acct simTime l orc (done ++ [e]) todo pass
          (planPath map l origin) rem picked bids calls
      else
        sweepGo map maxW acct simTime l orc (done ++ [e]) todo pass path rem picked bids calls
    else if simTime - e.1.1 > maxW then
      sweepGo map maxW acct simTime l orc (done ++ [e]) todo pass path (rem ++ [e.1]) picked
        bids calls
    else if e.2.bid = 0 then
      if bidOnFare map (done ++ e :: todo) pass acct maxW l simTime e.1.1 origin
          e.2.destination e.2.price then
        sweepGo map maxW acct simTime l orc (done ++ [(e.1, { e.2 with bid := 1 })]) todo pass
          path rem picked (bids ++ [origin]) calls
      else
        sweepGo map maxW acct simTime l orc (done ++ [(e.1, { e.2 with bid := -1 })]) todo pass
          path rem picked bids calls
    else
      sweepGo map maxW acct simTime l orc (done ++ [e]) todo pass path rem picked bids calls

/-- The decision part of a tick on a stopped taxi: the drop-off attempt
followed by the ledger sweep. -/
def tickSweep (orc : TickOracle V) (simTime : ℤ) (l : V) (st : TaxiState V) : SweepRes V :=
  let pass0 : Option V :=
    match st.passenger with
    | some p => if orc.dropoffOk then none else some p
    | none => none
  sweepGo st.map st.maxFareWait st.account simTime l orc.pickup [] st.fares pass0 st.path
    [] [] [] 0

/-- `clockTick`: the off-duty check, then — only when the route is empty —
drop-off, the ledger sweep and the deferred deletions, and finally the flat
`self._account -= 1` debit.  Returns the new state and the origins for
which `transmitFareBid` was called. -/
def clockTick (orc : TickOracle V) (simTime : ℤ) (l : V) (st : TaxiState V) :
    TaxiState V × List V :=
  let st1 := if st.account ≤ 0 then { st with onDuty := false, offDutyTime := simTime } else st
  if st1.path = [] then
    let r := tickSweep orc simTime l st1
    ({ st1 with
        passenger := r.passenger
        path := r.path
        fares := r.fares.filter (fun e => e.1 ∉ r.toRemove)
        account := st1.account - 1 }, r.bids)
  else
    ({ st1 with account := st1.account - 1 }, [])

/-! ### Movement (`drive`) -/

/-- The ways `drive` can abort: dereferencing a missing location
(`AttributeError`), the explicit "Fell of the edge of the world" and
"Can't get there from here" `IndexError`s, and the `IndexError` raised by
evaluating `self._path[0]` on an emptied route. -/
inductive DriveErr where
  | noLoc
  | fellOffMap
  | emptyPathIndex
  | noPathTo
deriving DecidableEq

/-- External responses a drive may consume: results of `occupy`, `vacate`,
`turn` and `continueThrough` (each a position–direction pair, position
`none` meaning a stop). -/
structure DriveOracle (V : Type) where
  occupyRes : Option V × ℤ
  vacateRes : Option V × ℤ
  turnRes : Option V × ℤ
  contRes : Option V × ℤ

/-- The leg-commit block of `drive` (no pending transition, route
remaining): pop the head if the taxi already stands on it, validate the
position and the hop against the map, and request the turn. -/
def driveCommit (turnRes : Option V × ℤ) (st : TaxiState V) :
    Except DriveErr (TaxiState V) :=
  if st.nextLoc = none ∧ st.path ≠ [] then
    match st.loc with
    | none => .error .noLoc
    | some l =>
      let path1 := if st.path.head? = some l then st.path.tail else st.path
      if l ∉ keysOf st.map then .error .fellOffMap
      else
        match path1.head? with
        | none => .error .emptyPathIndex
        | some nxt =>
          if (edgeW st.map l nxt).isNone then .error .noPathTo
          else .ok { st with
                      path := path1
                      nextLoc := turnRes.1
                      nextDirection := turnRes.2 }
  else .ok st

/-- `drive(newPose)`: the transition-confirmation block (vacate/occupy and
commit, then pop-or-continue), falling through to the leg-commit block. -/
def drive (orc : DriveOracle V) (newPose : Option V × ℤ) (st : TaxiState V) :
    Except DriveErr (TaxiState V) :=
  if st.nextLoc ≠ none ∧ newPose.1 = st.nextLoc ∧ newPose.2 = st.nextDirection then
    let nextPose := if st.loc = none then orc.occupyRes else orc.vacateRes
    if nextPose.1 = newPose.1 ∧ nextPose.2 = newPose.2 then
      let st1 : TaxiState V :=
        { st with
            loc := st.nextLoc
            direction := st.nextDirection
            nextLoc := none
            nextDirection := -1 }
      if st1.path ≠ [] then
        if st1.path.head? = st1.loc then
          driveCommit orc.turnRes { st1 with path := st1.path.tail }
        else
          .ok { st1 with nextLoc := orc.contRes.1, nextDirection := orc.contRes.2 }
      else driveCommit orc.turnRes st1
    else driveCommit orc.turnRes st
  else driveCommit orc.turnRes st

/-! ### Interleavings -/

/-- One event visible to the agent: an inbound dispatcher message, a tick
(for a placed taxi), or a granted drive update. -/
inductive Step : TaxiState V → TaxiState V → Prop
  | msg (st : TaxiState V) (t : ℤ) (m : Msg V) : Step st (recvMsg st t m)
  | tick (st : TaxiState V) (orc : TickOracle V) (t : ℤ) (l : V) (h : st.loc = some l) :
      Step st (clockTick orc t l st).1
  | drv (st st' : TaxiState V) (orc : DriveOracle V) (p : Option V × ℤ)
      (h : drive orc p st = .ok st') : Step st st'

/-- Reachability from a state by any interleaving of events. -/
def Reach (st st' : TaxiState V) : Prop := Relation.ReflTransGen Step st st'

/-- Events as in `Step`, except that the dispatcher confirms an allocation
only while the agent neither carries a passenger nor holds an allocated
entry (a single-allocation dispatcher). -/
inductive StepR : TaxiState V → TaxiState V → Prop
  | advice (st : TaxiState V) (t : ℤ) (o d : V) (p : ℤ) :
      StepR st (recvAdvice st t o d p)
  | alloc (st : TaxiState V) (o d : V)
      (h : st.passenger = none ∧ allocatedCount st.fares = 0) :
      StepR st (recvAlloc st o d)
  | pay (st : TaxiState V) (a : ℤ) : StepR st (recvPay st a)
  | cancel (st : TaxiState V) (o : V) : StepR st (recvCancel st o)
  | tick (st : TaxiState V) (orc : TickOracle V) (t : ℤ) (l : V) (h : st.loc = some l) :
      StepR st (clockTick orc t l st).1
  | drv (st st' : TaxiState V) (orc : DriveOracle V) (p : Option V × ℤ)
      (h : drive orc p st = .ok st') : StepR st st'

/-- Reachability under the single-allocation dispatcher. -/
def ReachR (st st' : TaxiState V) : Prop := Relation.ReflTransGen StepR st st'

end Taxi

/-! ## Facts about the protocol handler -/

section Protocol

variable [LinearOrder V]

lemma allocFirst_idem (l : List ((ℤ × V) × FareInfo V)) (o d : V) :
    allocFirst (allocFirst l o d) o d = allocFirst l o d := by
  induction l with
  | nil => rfl
  | cons e t ih =>
    rw [allocFirst]
    by_cases h : e.1.2 = o ∧ e.2.destination = d
    · rw [if_pos h, allocFirst, if_pos (by exact h)]
    · rw [if_neg h, allocFirst, if_neg h, ih]

lemma allocFirst_nomatch {l : List ((ℤ × V) × FareInfo V)} {o d : V}
    (h : ∀ e ∈ l, ¬(e.1.2 = o ∧ e.2.destination = d)) : allocFirst l o d = l := by
  induction l with
  | nil => rfl
  | cons e t ih =>
    rw [allocFirst, if_neg (h e (List.mem_cons_self e t)),
      ih (fun e' he' => h e' (List.mem_cons_of_mem e he'))]

lemma lookupKey_upsert_self {α β : Type} [DecidableEq α] (l : List (α × β)) (k : α) (b : β) :
    lookupKey (upsert l k b) k = some b := by
  induction l with
  | nil => simp [upsert, lookupKey]
  | cons e t ih =>
    rw [upsert]
    by_cases h : e.1 = k
    · rw [if_pos h, lookupKey, if_pos rfl]
    · rw [if_neg h, lookupKey, if_neg h, ih]

lemma lookupKey_upsert_ne {α β : Type} [DecidableEq α] (l : List (α × β)) (k k' : α) (b : β)
    (hne : k' ≠ k) : lookupKey (upsert l k b) k' = lookupKey l k' := by
  induction l with
  | nil =>
    rw [upsert, lookupKey, lookupKey, if_neg (fun hq : k = k' => hne hq.symm)]
    rfl
  | cons e t ih =>
    rw [upsert]
    by_cases h : e.1 = k
    · rw [if_pos h, lookupKey, lookupKey, if_neg (fun hq : k = k' => hne hq.symm),
        if_neg (show ¬e.1 = k' from fun hq => hne (by rw [← hq, h]))]
    · rw [if_neg h, lookupKey, lookupKey]
      by_cases h2 : e.1 = k'
      · rw [if_pos h2, if_pos h2]
      · rw [if_neg h2, if_neg h2, ih]

lemma upsert_length_of_mem {α β : Type} [DecidableEq α] {l : List (α × β)} {k : α} (b : β)
    (hk : k ∈ keysOf l) : (upsert l k b).length = l.length := by
  induction l with
  | nil => simp [keysOf] at hk
  | cons e t ih =>
    rw [upsert]
    by_cases h : e.1 = k
    · rw [if_pos h]
      rfl
    · rw [if_neg h]
      have hk' : k ∈ keysOf t := by
        rw [keysOf, List.map_cons, List.mem_cons] at hk
        exact hk.resolve_left (fun hq => h hq.symm)
      rw [List.length_cons, List.length_cons, ih hk']

lemma keysOf_upsert_of_mem {α β : Type} [DecidableEq α] {l : List (α × β)} {k : α} (b : β)
    (hk : k ∈ keysOf l) : keysOf (upsert l k b) = keysOf l := by
  induction l with
  | nil => simp [keysOf] at hk
  | cons e t ih =>
    rw [upsert]
    by_cases h : e.1 = k
    · rw [if_pos h, keysOf, keysOf, List.map_cons, List.map_cons, h]
    · rw [if_neg h]
      have hk' : k ∈ keysOf t := by
        rw [keysOf, List.map_cons, List.mem_cons] at hk
        exact hk.resolve_left (fun hq => h hq.symm)
      rw [keysOf, keysOf, List.map_cons, List.map_cons]
      have h2 := ih hk'
      rw [keysOf, keysOf] at h2
      rw [h2]

end Protocol

/-! ## Facts about the bid evaluator and the tick -/

section Bid

variable [LinearOrder V]

/-- The bid decision unfolded: all five criteria plus finiteness of both
leg estimates. -/
lemma bidOnFare_eq_true_iff (map : KMap V) (fares : List ((ℤ × V) × FareInfo V))
    (passenger : Option V) (account maxFareWait : ℤ) (locIdx : V) (simTime time : ℤ)
    (origin destination : V) (price : ℤ) :
    bidOnFare map fares passenger account maxFareWait locIdx simTime time origin
        destination price = true ↔
      ((passenger = none ∧ allocatedCount fares = 0) ∧
        account > 2 * ((planPath map locIdx origin).length : ℤ) ∧
        price > 2 * ((planPath map locIdx origin).length : ℤ)
          + 2 * ((planPath map origin destination).length : ℤ) ∧
        simTime - time < maxFareWait ∧
        maxFareWait - (simTime - time) > 2 * ((planPath map locIdx origin).length : ℤ) ∧
        planPath map locIdx origin ≠ [] ∧ planPath map origin destination ≠ []) := by
  have hlen : ∀ (L : List V), ((L.length : ℤ) * 2 > 0 ↔ L ≠ []) := by
    intro L
    rw [← List.length_pos]
    omega
  simp only [bidOnFare, Bool.and_eq_true, decide_eq_true_eq, Option.isNone_iff_eq_none]
  constructor
  · rintro ⟨⟨hafford, hexp, hfin1, htime⟩, ⟨hprice, hfin2⟩, hpass, halloc⟩
    refine ⟨⟨hpass, halloc⟩, by omega, by omega, by omega, by omega,
      (hlen _).mp hfin1, (hlen _).mp hfin2⟩
  · rintro ⟨⟨hpass, halloc⟩, hafford, hprice, hexp, htime, hfin1, hfin2⟩
    exact ⟨⟨by omega, by omega, (hlen _).mpr hfin1, by omega⟩,
      ⟨by omega, (hlen _).mpr hfin2⟩, hpass, halloc⟩

/-- A taxi that cannot even afford to stay on duty never bids: the
affordability test fails for a non-positive account. -/
lemma bidOnFare_false_of_nonpos (map : KMap V) (fares : List ((ℤ × V) × FareInfo V))
    (passenger : Option V) {account : ℤ} (maxFareWait : ℤ) (locIdx : V)
    (simTime time : ℤ) (origin destination : V) (price : ℤ) (h : account ≤ 0) :
    bidOnFare map fares passenger account maxFareWait locIdx simTime time origin
        destination price = false := by
  rw [← Bool.not_eq_true, bidOnFare_eq_true_iff]
  rintro ⟨_, hafford, _⟩
  have : (0 : ℤ) ≤ ((planPath map locIdx origin).length : ℤ) := Int.natCast_nonneg _
  omega

/-- With a non-positive account, the sweep transmits no bid. -/
lemma sweepGo_bids_nonpos (map : KMap V) (maxW : ℤ) {acct : ℤ} (simTime : ℤ) (l : V)
    (orc : ℕ → Option V) (h : acct ≤ 0) :
    ∀ (todo done : List ((ℤ × V) × FareInfo V)) (pass : Option V) (path : List V)
      (rem picked : List (ℤ × V)) (bids : List V) (calls : ℕ),
      (sweepGo map maxW acct simTime l orc done todo pass path rem picked bids calls).bids
        = bids := by
  intro todo
  induction todo with
  | nil =>
    intro done pass path rem picked bids calls
    rfl
  | cons e t ih =>
    intro done pass path rem picked bids calls
    rw [sweepGo]
    dsimp only
    by_cases h1 : e.2.allocated = true ∧ pass = none
    · rw [if_pos h1]
      by_cases h2 : l = e.1.2
      · rw [if_pos h2]
        cases orc calls with
        | some pdest => exact ih _ _ _ _ _ _ _
        | none => exact ih _ _ _ _ _ _ _
      · rw [if_neg h2]
        by_cases h3 : path = []
        · rw [if_pos h3]
          exact ih _ _ _ _ _ _ _
        · rw [if_neg h3]
          exact ih _ _ _ _ _ _ _
    · rw [if_neg h1]
      by_cases h2 : simTime - e.1.1 > maxW
      · rw [if_pos h2]
        exact ih _ _ _ _ _ _ _
      · rw [if_neg h2]
        by_cases h3 : e.2.bid = 0
        · rw [if_pos h3]
          rw [bidOnFare_false_of_nonpos map _ pass maxW l simTime e.1.1 e.1.2
            e.2.destination e.2.price h]
          rw [if_neg (by simp)]
          exact ih _ _ _ _ _ _ _
        · rw [if_neg h3]
          exact ih _ _ _ _ _ _ _

end Bid

/-! ## Facts about the ledger sweep -/

section Sweep

variable [LinearOrder V]
variable (map : KMap V) (maxW acct simTime : ℤ) (l : V) (orc : ℕ → Option V)

/-- Keys already collected for removal stay collected. -/
lemma sweepGo_rem_mono :
    ∀ (todo done : List ((ℤ × V) × FareInfo V)) (pass : Option V) (path : List V)
      (rem picked : List (ℤ × V)) (bids : List V) (calls : ℕ) (k : ℤ × V), k ∈ rem →
      k ∈ (sweepGo map maxW acct simTime l orc done todo pass path rem picked bids
        calls).toRemove := by
  intro todo
  induction todo with
  | nil =>
    intro done pass path rem picked bids calls k hk
    exact hk
  | cons e t ih =>
    intro done pass path rem picked bids calls k hk
    rw [sweepGo]
    dsimp only
    by_cases h1 : e.2.allocated = true ∧ pass = none
    · rw [if_pos h1]
      by_cases h2 : l = e.1.2
      · rw [if_pos h2]
        cases orc calls with
        | some pdest => exact ih _ _ _ _ _ _ _ _ (List.mem_append.mpr (Or.inl hk))
        | none => exact ih _ _ _ _ _ _ _ _ hk
      · rw [if_neg h2]
        by_cases h3 : path = []
        · rw [if_pos h3]
          exact ih _ _ _ _ _ _ _ _ hk
        · rw [if_neg h3]
          exact ih _ _ _ _ _ _ _ _ hk
    · rw [if_neg h1]
      by_cases h2 : simTime - e.1.1 > maxW
      · rw [if_pos h2]
        exact ih _ _ _ _ _ _ _ _ (List.mem_append.mpr (Or.inl hk))
      · rw [if_neg h2]
        by_cases h3 : e.2.bid = 0
        · rw [if_pos h3]
          by_cases h4 : bidOnFare map (done ++ e :: t) pass acct maxW l simTime e.1.1 e.1.2
              e.2.destination e.2.price = true
          · rw [if_pos h4]
            exact ih _ _ _ _ _ _ _ _ hk
          · rw [if_neg h4]
            exact ih _ _ _ _ _ _ _ _ hk
        · rw [if_neg h3]
          exact ih _ _ _ _ _ _ _ _ hk

/-- Every key collected for removal was already collected or belongs to a
pending entry that is allocated (pickup) or stale (expiry). -/
lemma sweepGo_rem_bound :
    ∀ (todo done : List ((ℤ × V) × FareInfo V)) (pass : Option V) (path : List V)
      (rem picked : List (ℤ × V)) (bids : List V) (calls : ℕ) (k : ℤ × V),
      k ∈ (sweepGo map maxW acct simTime l orc done todo pass path rem picked bids
        calls).toRemove →
      k ∈ rem ∨ ∃ e ∈ todo, e.1 = k ∧ (e.2.allocated = true ∨ simTime - e.1.1 > maxW) := by
  intro todo
  induction todo with
  | nil =>
    intro done pass path rem picked bids calls k hk
    exact Or.inl hk
  | cons e t ih =>
    intro done pass path rem picked bids calls k hk
    rw [sweepGo] at hk
    dsimp only at hk
    by_cases h1 : e.2.allocated = true ∧ pass = none
    · rw [if_pos h1] at hk
      by_cases h2 : l = e.1.2
      · rw [if_pos h2] at hk
        cases horc : orc calls with
        | some pdest =>
          rw [horc] at hk
          rcases ih _ _ _ _ _ _ _ _ hk with hr | ⟨f, hf, hfk, hfc⟩
          · rcases List.mem_append.mp hr with hr | hr
            · exact Or.inl hr
            · rw [List.mem_singleton] at hr
              exact Or.inr ⟨e, List.mem_cons_self e t, hr.symm, Or.inl h1.1⟩
          · exact Or.inr ⟨f, List.mem_cons_of_mem e hf, hfk, hfc⟩
        | none =>
          rw [horc] at hk
          rcases ih _ _ _ _ _ _ _ _ hk with hr | ⟨f, hf, hfk, hfc⟩
          · exact Or.inl hr
          · exact Or.inr ⟨f, List.mem_cons_of_mem e hf, hfk, hfc⟩
      · rw [if_neg h2] at hk
        by_cases h3 : path = []
        · rw [if_pos h3] at hk
          rcases ih _ _ _ _ _ _ _ _ hk with hr | ⟨f, hf, hfk, hfc⟩
          · exact Or.inl hr
          · exact Or.inr ⟨f, List.mem_cons_of_mem e hf, hfk, hfc⟩
        · rw [if_neg h3] at hk
          rcases ih _ _ _ _ _ _ _ _ hk with hr | ⟨f, hf, hfk, hfc⟩
          · exact Or.inl hr
          · exact Or.inr ⟨f, List.mem_cons_of_mem e hf, hfk, hfc⟩
    · rw [if_neg h1] at hk
      by_cases h2 : simTime - e.1.1 > maxW
      · rw [if_pos h2] at hk
        rcases ih _ _ _ _ _ _ _ _ hk with hr | ⟨f, hf, hfk, hfc⟩
        · rcases List.mem_append.mp hr with hr | hr
          · exact Or.inl hr
          · rw [List.mem_singleton] at hr
            exact Or.inr ⟨e, List.mem_cons_self e t, hr.symm, Or.inr h2⟩
        · exact Or.inr ⟨f, List.mem_cons_of_mem e hf, hfk, hfc⟩
      · rw [if_neg h2] at hk
        by_cases h3 : e.2.bid = 0
        · rw [if_pos h3] at hk
          by_cases h4 : bidOnFare map (done ++ e :: t) pass acct maxW l simTime e.1.1 e.1.2
              e.2.destination e.2.price = true
          · rw [if_pos h4] at hk
            rcases ih _ _ _ _ _ _ _ _ hk with hr | ⟨f, hf, hfk, hfc⟩
            · exact Or.inl hr
            · exact Or.inr ⟨f, List.mem_cons_of_mem e hf, hfk, hfc⟩
          · rw [if_neg h4] at hk
            rcases ih _ _ _ _ _ _ _ _ hk with hr | ⟨f, hf, hfk, hfc⟩
            · exact Or.inl hr
            · exact Or.inr ⟨f, List.mem_cons_of_mem e hf, hfk, hfc⟩
        · rw [if_neg h3] at hk
          rcases ih _ _ _ _ _ _ _ _ hk with hr | ⟨f, hf, hfk, hfc⟩
          · exact Or.inl hr
          · exact Or.inr ⟨f, List.mem_cons_of_mem e hf, hfk, hfc⟩

/-- Every key recorded as picked up was already recorded or belongs to a
pending allocated entry. -/
lemma sweepGo_picked_bound :
    ∀ (todo done : List ((ℤ × V) × FareInfo V)) (pass : Option V) (path : List V)
      (rem picked : List (ℤ × V)) (bids : List V) (calls : ℕ) (k : ℤ × V),
      k ∈ (sweepGo map maxW acct simTime l orc done todo pass path rem picked bids
        calls).picked →
      k ∈ picked ∨ ∃ e ∈ todo, e.1 = k ∧ e.2.allocated = true := by
  intro todo
  induction todo with
  | nil =>
    intro done pass path rem picked bids calls k hk
    exact Or.inl hk
  | cons e t ih =>
    intro done pass path rem picked bids calls k hk
    rw [sweepGo] at hk
    dsimp only at hk
    by_cases h1 : e.2.allocated = true ∧ pass = none
    · rw [if_pos h1] at hk
      by_cases h2 : l = e.1.2
      · rw [if_pos h2] at hk
        cases horc : orc calls with
        | some pdest =>
          rw [horc] at hk
          rcases ih _ _ _ _ _ _ _ _ hk with hr | ⟨f, hf, hfk, hfc⟩
          · rcases List.mem_append.mp hr with hr | hr
            · exact Or.inl hr
            · rw [List.mem_singleton] at hr
              exact Or.inr ⟨e, List.mem_cons_self e t, hr.symm, h1.1⟩
          · exact Or.inr ⟨f, List.mem_cons_of_mem e hf, hfk, hfc⟩
        | none =>
          rw [horc] at hk
          rcases ih _ _ _ _ _ _ _ _ hk with hr | ⟨f, hf, hfk, hfc⟩
          · exact Or.inl hr
          · exact Or.inr ⟨f, List.mem_cons_of_mem e hf, hfk, hfc⟩
      · rw [if_neg h2] at hk
        by_cases h3 : path = []
        · rw [if_pos h3] at hk
          rcases ih _ _ _ _ _ _ _ _ hk with hr | ⟨f, hf, hfk, hfc⟩
          · exact Or.inl hr
          · exact Or.inr ⟨f, List.mem_cons_of_mem e hf, hfk, hfc⟩
        · rw [if_neg h3] at hk
          rcases ih _ _ _ _ _ _ _ _ hk with hr | ⟨f, hf, hfk, hfc⟩
          · exact Or.inl hr
          · exact Or.inr ⟨f, List.mem_cons_of_mem e hf, hfk, hfc⟩
    · rw [if_neg h1] at hk
      by_cases h2 : simTime - e.1.1 > maxW
      · rw [if_pos h2] at hk
        rcases ih _ _ _ _ _ _ _ _ hk with hr | ⟨f, hf, hfk, hfc⟩
        · exact Or.inl hr
        · exact Or.inr ⟨f, List.mem_cons_of_mem e hf, hfk, hfc⟩
      · rw [if_neg h2] at hk
        by_cases h3 : e.2.bid = 0
        · rw [if_pos h3] at hk
          by_cases h4 : bidOnFare map (done ++ e :: t) pass acct maxW l simTime e.1.1 e.1.2
              e.2.destination e.2.price = true
          · rw [if_pos h4] at hk
            rcases ih _ _ _ _ _ _ _ _ hk with hr | ⟨f, hf, hfk, hfc⟩
            · exact Or.inl hr
            · exact Or.inr ⟨f, List.mem_cons_of_mem e hf, hfk, hfc⟩
          · rw [if_neg h4] at hk
            rcases ih _ _ _ _ _ _ _ _ hk with hr | ⟨f, hf, hfk, hfc⟩
            · exact Or.inl hr
            · exact Or.inr ⟨f, List.mem_cons_of_mem e hf, hfk, hfc⟩
        · rw [if_neg h3] at hk
          rcases ih _ _ _ _ _ _ _ _ hk with hr | ⟨f, hf, hfk, hfc⟩
          · exact Or.inl hr
          · exact Or.inr ⟨f, List.mem_cons_of_mem e hf, hfk, hfc⟩

/-- Keys of distinct entries are distinct under a `Nodup` key list. -/
lemma key_ne_of_nodup {f : (ℤ × V) × FareInfo V} {t : List ((ℤ × V) × FareInfo V)}
    (hnd : (keysOf (f :: t)).Nodup) {e : (ℤ × V) × FareInfo V} (he : e ∈ t) :
    e.1 ≠ f.1 := by
  rw [keysOf, List.map_cons, List.nodup_cons] at hnd
  intro hq
  exact hnd.1 (hq ▸ List.mem_map.mpr ⟨e, he, rfl⟩)

lemma nodup_keys_tail {f : (ℤ × V) × FareInfo V} {t : List ((ℤ × V) × FareInfo V)}
    (hnd : (keysOf (f :: t)).Nodup) : (keysOf t).Nodup := by
  rw [keysOf, List.map_cons, List.nodup_cons] at hnd
  exact hnd.2

/-- An unallocated pending entry is collected for removal exactly when it is
stale, whatever the passenger situation does during the sweep. -/
lemma sweepGo_unalloc_rem :
    ∀ (todo done : List ((ℤ × V) × FareInfo V)) (pass : Option V) (path : List V)
      (rem picked : List (ℤ × V)) (bids : List V) (calls : ℕ)
      (e : (ℤ × V) × FareInfo V), e ∈ todo → e.2.allocated = false →
      (keysOf todo).Nodup → e.1 ∉ rem →
      (e.1 ∈ (sweepGo map maxW acct simTime l orc done todo pass path rem picked bids
          calls).toRemove ↔ simTime - e.1.1 > maxW) := by
  intro todo
  induction todo with
  | nil =>
    intro done pass path rem picked bids calls e he
    simp at he
  | cons f t ih =>
    intro done pass path rem picked bids calls e he hal hnd hrem
    have hnd' := nodup_keys_tail (V := V) hnd
    -- a later entry never shares the head's key
    rcases List.mem_cons.mp he with rfl | het
    · -- `e` is processed now: unallocated, so only the expiry test matters
      rw [sweepGo]
      dsimp only
      rw [if_neg (by rw [hal]; rintro ⟨hq, _⟩; cases hq)]
      by_cases h2 : simTime - e.1.1 > maxW
      · rw [if_pos h2]
        refine ⟨fun _ => h2, fun _ => ?_⟩
        exact sweepGo_rem_mono map maxW acct simTime l orc _ _ _ _ _ _ _ _ _
          (List.mem_append.mpr (Or.inr (List.mem_singleton.mpr rfl)))
      · rw [if_neg h2]
        have hnot : ∀ (done' : List ((ℤ × V) × FareInfo V)) pass' path' bids',
            e.1 ∉ (sweepGo map maxW acct simTime l orc done' t pass' path' rem picked bids'
              calls).toRemove := by
          intro done' pass' path' bids' hq
          rcases sweepGo_rem_bound map maxW acct simTime l orc _ _ _ _ _ _ _ _ _ hq with
            hr | ⟨g, hg, hgk, _⟩
          · exact hrem hr
          · exact (key_ne_of_nodup hnd hg) hgk
        by_cases h3 : e.2.bid = 0
        · rw [if_pos h3]
          by_cases h4 : bidOnFare map (done ++ e :: t) pass acct maxW l simTime e.1.1 e.1.2
              e.2.destination e.2.price = true
          · rw [if_pos h4]
            exact ⟨fun hq => absurd hq (hnot _ _ _ _), fun hq => absurd hq h2⟩
          · rw [if_neg h4]
            exact ⟨fun hq => absurd hq (hnot _ _ _ _), fun hq => absurd hq h2⟩
        · rw [if_neg h3]
          exact ⟨fun hq => absurd hq (hnot _ _ _ _), fun hq => absurd hq h2⟩
    · -- `e` comes later: step over the head entry
      have hne : e.1 ≠ f.1 := key_ne_of_nodup hnd het
      rw [sweepGo]
      dsimp only
      by_cases h1 : f.2.allocated = true ∧ pass = none
      · rw [if_pos h1]
        by_cases h2 : l = f.1.2
        · rw [if_pos h2]
          cases horc : orc calls with
          | some pdest =>
            refine ih _ _ _ _ _ _ _ e het hal hnd' ?_
            intro hq
            rcases List.mem_append.mp hq with hq | hq
            · exact hrem hq
            · exact hne (List.mem_singleton.mp hq)
          | none => exact ih _ _ _ _ _ _ _ e het hal hnd' hrem
        · rw [if_neg h2]
          by_cases h3 : path = []
          · rw [if_pos h3]
            exact ih _ _ _ _ _ _ _ e het hal hnd' hrem
          · rw [if_neg h3]
            exact ih _ _ _ _ _ _ _ e het hal hnd' hrem
      · rw [if_neg h1]
        by_cases h2 : simTime - f.1.1 > maxW
        · rw [if_pos h2]
          refine ih _ _ _ _ _ _ _ e het hal hnd' ?_
          intro hq
          rcases List.mem_append.mp hq with hq | hq
          · exact hrem hq
          · exact hne (List.mem_singleton.mp hq)
        · rw [if_neg h2]
          by_cases h3 : f.2.bid = 0
          · rw [if_pos h3]
            by_cases h4 : bidOnFare map (done ++ f :: t) pass acct maxW l simTime f.1.1 f.1.2
                f.2.destination f.2.price = true
            · rw [if_pos h4]
              exact ih _ _ _ _ _ _ _ e het hal hnd' hrem
            · rw [if_neg h4]
              exact ih _ _ _ _ _ _ _ e het hal hnd' hrem
          · rw [if_neg h3]
            exact ih _ _ _ _ _ _ _ e het hal hnd' hrem

/-- With a passenger aboard throughout (the sweep starts with one and a
pickup can then never occur), nothing is picked up, the passenger stays,
and every pending entry — allocated or not — is collected exactly when
stale. -/
lemma sweepGo_pass_some :
    ∀ (todo done : List ((ℤ × V) × FareInfo V)) (p : V) (path : List V)
      (rem picked : List (ℤ × V)) (bids : List V) (calls : ℕ),
      (sweepGo map maxW acct simTime l orc done todo (some p) path rem picked bids
        calls).passenger = some p ∧
      (sweepGo map maxW acct simTime l orc done todo (some p) path rem picked bids
        calls).picked = picked ∧
      ∀ (e : (ℤ × V) × FareInfo V), e ∈ todo → (keysOf todo).Nodup → e.1 ∉ rem →
        (e.1 ∈ (sweepGo map maxW acct simTime l orc done todo (some p) path rem picked bids
            calls).toRemove ↔ simTime - e.1.1 > maxW) := by
  intro todo
  induction todo with
  | nil =>
    intro done p path rem picked bids calls
    exact ⟨rfl, rfl, fun e he => by simp at he⟩
  | cons f t ih =>
    intro done p path rem picked bids calls
    rw [sweepGo]
    dsimp only
    rw [if_neg (by rintro ⟨_, hq⟩; cases hq)]
    by_cases h2 : simTime - f.1.1 > maxW
    · rw [if_pos h2]
      refine ⟨(ih _ _ _ _ _ _ _).1, (ih _ _ _ _ _ _ _).2.1, ?_⟩
      intro e he hnd hrem
      have hnd' := nodup_keys_tail (V := V) hnd
      rcases List.mem_cons.mp he with rfl | het
      · refine ⟨fun _ => h2, fun _ => ?_⟩
        exact sweepGo_rem_mono map maxW acct simTime l orc _ _ _ _ _ _ _ _ _
          (List.mem_append.mpr (Or.inr (List.mem_singleton.mpr rfl)))
      · refine (ih _ _ _ _ _ _ _).2.2 e het hnd' ?_
        intro hq
        rcases List.mem_append.mp hq with hq | hq
        · exact hrem hq
        · exact key_ne_of_nodup hnd het (List.mem_singleton.mp hq)
    · rw [if_neg h2]
      have step : ∀ (done' : List ((ℤ × V) × FareInfo V)) bids',
          (sweepGo map maxW acct simTime l orc done' t (some p) path rem picked bids'
            calls).passenger = some p ∧
          (sweepGo map maxW acct simTime l orc done' t (some p) path rem picked bids'
            calls).picked = picked ∧
          ∀ (e : (ℤ × V) × FareInfo V), e ∈ f :: t → (keysOf (f :: t)).Nodup →
            e.1 ∉ rem →
            (e.1 ∈ (sweepGo map maxW acct simTime l orc done' t (some p) path rem picked
                bids' calls).toRemove ↔ simTime - e.1.1 > maxW) := by
        intro done' bids'
        refine ⟨(ih _ _ _ _ _ _ _).1, (ih _ _ _ _ _ _ _).2.1, ?_⟩
        intro e he hnd hrem
        have hnd' := nodup_keys_tail (V := V) hnd
        rcases List.mem_cons.mp he with rfl | het
        · refine ⟨?_, fun hq => absurd hq h2⟩
          intro hq
          rcases sweepGo_rem_bound map maxW acct simTime l orc _ _ _ _ _ _ _ _ _ hq with
            hr | ⟨g, hg, hgk, _⟩
          · exact absurd hr hrem
          · exact absurd hgk (key_ne_of_nodup hnd hg)
        · exact (ih _ _ _ _ _ _ _).2.2 e het hnd' hrem
      by_cases h3 : f.2.bid = 0
      · rw [if_pos h3]
        by_cases h4 : bidOnFare map (done ++ f :: t) (some p) acct maxW l simTime f.1.1 f.1.2
            f.2.destination f.2.price = true
        · rw [if_pos h4]
          exact step _ _
        · rw [if_neg h4]
          exact step _ _
      · rw [if_neg h3]
        exact step _ _

/-- With no passenger and every pickup attempt failing, an allocated
pending entry is never collected for removal. -/
lemma sweepGo_alloc_protected (horc : ∀ n, orc n = none) :
    ∀ (todo done : List ((ℤ × V) × FareInfo V)) (path : List V)
      (rem picked : List (ℤ × V)) (bids : List V) (calls : ℕ)
      (e : (ℤ × V) × FareInfo V), e ∈ todo → e.2.allocated = true →
      (keysOf todo).Nodup → e.1 ∉ rem →
      e.1 ∉ (sweepGo map maxW acct simTime l orc done todo none path rem picked bids
        calls).toRemove := by
  intro todo
  induction todo with
  | nil =>
    intro done path rem picked bids calls e he
    simp at he
  | cons f t ih =>
    intro done path rem picked bids calls e he hal hnd hrem
    have hnd' := nodup_keys_tail (V := V) hnd
    rw [sweepGo]
    dsimp only
    rcases List.mem_cons.mp he with rfl | het
    · -- `e` is processed now: allocated with no passenger, so the expiry
      -- branch is unreachable, and a failing pickup collects nothing
      rw [if_pos ⟨hal, rfl⟩]
      have hnot : ∀ (done' : List ((ℤ × V) × FareInfo V)) path',
          e.1 ∉ (sweepGo map maxW acct simTime l orc done' t none path' rem picked bids
            calls).toRemove := by
        intro done' path' hq
        rcases sweepGo_rem_bound map maxW acct simTime l orc _ _ _ _ _ _ _ _ _ hq with
          hr | ⟨g, hg, hgk, _⟩
        · exact hrem hr
        · exact (key_ne_of_nodup hnd hg) hgk
      by_cases h2 : l = e.1.2
      · rw [if_pos h2, horc calls]
        have hnot2 : ∀ (done' : List ((ℤ × V) × FareInfo V)) path',
            e.1 ∉ (sweepGo map maxW acct simTime l orc done' t none path' rem picked bids
              (calls + 1)).toRemove := by
          intro done' path' hq
          rcases sweepGo_rem_bound map maxW acct simTime l orc _ _ _ _ _ _ _ _ _ hq with
            hr | ⟨g, hg, hgk, _⟩
          · exact hrem hr
          · exact (key_ne_of_nodup hnd hg) hgk
        exact hnot2 _ _
      · rw [if_neg h2]
        by_cases h3 : path = []
        · rw [if_pos h3]
          exact hnot _ _
        · rw [if_neg h3]
          exact hnot _ _
    · have hne : e.1 ≠ f.1 := key_ne_of_nodup hnd het
      by_cases h1 : f.2.allocated = true ∧ (none : Option V) = none
      · rw [if_pos h1]
        by_cases h2 : l = f.1.2
        · rw [if_pos h2, horc calls]
          exact ih _ _ _ _ _ _ e het hal hnd' hrem
        · rw [if_neg h2]
          by_cases h3 : path = []
          · rw [if_pos h3]
            exact ih _ _ _ _ _ _ e het hal hnd' hrem
          · rw [if_neg h3]
            exact ih _ _ _ _ _ _ e het hal hnd' hrem
      · rw [if_neg h1]
        by_cases h2 : simTime - f.1.1 > maxW
        · rw [if_pos h2]
          refine ih _ _ _ _ _ _ e het hal hnd' ?_
          intro hq
          rcases List.mem_append.mp hq with hq | hq
          · exact hrem hq
          · exact hne (List.mem_singleton.mp hq)
        · rw [if_neg h2]
          by_cases h3 : f.2.bid = 0
          · rw [if_pos h3]
            by_cases h4 : bidOnFare map (done ++ f :: t) none acct maxW l simTime f.1.1 f.1.2
                f.2.destination f.2.price = true
            · rw [if_pos h4]
              exact ih _ _ _ _ _ _ e het hal hnd' hrem
            · rw [if_neg h4]
              exact ih _ _ _ _ _ _ e het hal hnd' hrem
          · rw [if_neg h3]
            exact ih _ _ _ _ _ _ e het hal hnd' hrem

/-- Two ledger entries with the same key coincide when the key list has no
duplicates. -/
lemma entry_eq_of_key_eq {L : List ((ℤ × V) × FareInfo V)} (hnd : (keysOf L).Nodup)
    {a b : (ℤ × V) × FareInfo V} (ha : a ∈ L) (hb : b ∈ L) (hk : a.1 = b.1) : a = b := by
  induction L with
  | nil => simp at ha
  | cons f t ih =>
    rcases List.mem_cons.mp ha with rfl | hat
    · rcases List.mem_cons.mp hb with rfl | hbt
      · rfl
      · exact absurd hk.symm (key_ne_of_nodup hnd hbt)
    · rcases List.mem_cons.mp hb with rfl | hbt
      · exact absurd hk (key_ne_of_nodup hnd hat)
      · exact ih (nodup_keys_tail hnd) hat hbt

end Sweep

/-! ## Counting commitments through a tick -/

section Commit

variable [LinearOrder V]

/-- The deferred deletion `for expired in faresToRemove: del ...` as a
filter. -/
def purge (fares : List ((ℤ × V) × FareInfo V)) (rem : List (ℤ × V)) :
    List ((ℤ × V) × FareInfo V) :=
  fares.filter (fun e => e.1 ∉ rem)

lemma purge_cons (e : (ℤ × V) × FareInfo V) (t : List ((ℤ × V) × FareInfo V))
    (rem : List (ℤ × V)) :
    purge (e :: t) rem = if e.1 ∈ rem then purge t rem else e :: purge t rem := by
  unfold purge
  rw [List.filter_cons]
  by_cases h : e.1 ∈ rem
  · simp [h]
  · simp [h]

lemma purge_nil_rem (L : List ((ℤ × V) × FareInfo V)) : purge L [] = L := by
  unfold purge
  apply List.filter_eq_self.mpr
  intro a _
  simp

lemma purge_append (a b : List ((ℤ × V) × FareInfo V)) (rem : List (ℤ × V)) :
    purge (a ++ b) rem = purge a rem ++ purge b rem := by
  unfold purge
  rw [List.filter_append]

lemma allocatedCount_cons (e : (ℤ × V) × FareInfo V) (t : List ((ℤ × V) × FareInfo V)) :
    allocatedCount (e :: t) = (if e.2.allocated = true then 1 else 0) + allocatedCount t := by
  unfold allocatedCount
  rw [List.filter_cons]
  by_cases h : e.2.allocated = true
  · simp [h]
    omega
  · simp [h]

lemma allocatedCount_append (a b : List ((ℤ × V) × FareInfo V)) :
    allocatedCount (a ++ b) = allocatedCount a + allocatedCount b := by
  unfold allocatedCount
  rw [List.filter_append, List.length_append]

/-- Collecting more keys never increases the surviving allocated count. -/
lemma alloc_purge_mono (L : List ((ℤ × V) × FareInfo V)) {rem rem' : List (ℤ × V)}
    (h : ∀ k ∈ rem, k ∈ rem') :
    allocatedCount (purge L rem') ≤ allocatedCount (purge L rem) := by
  induction L with
  | nil => exact le_refl _
  | cons e t ih =>
    rw [purge_cons, purge_cons]
    by_cases h1 : e.1 ∈ rem
    · rw [if_pos h1, if_pos (h _ h1)]
      exact ih
    · rw [if_neg h1]
      by_cases h2 : e.1 ∈ rem'
      · rw [if_pos h2, allocatedCount_cons]
        exact ih.trans (Nat.le_add_left _ _)
      · rw [if_neg h2, allocatedCount_cons, allocatedCount_cons]
        exact Nat.add_le_add_left ih _

/-- Collecting a key that no entry carries changes nothing. -/
lemma purge_snoc_absent {L : List ((ℤ × V) × FareInfo V)} {k : ℤ × V}
    (hk : k ∉ keysOf L) (rem : List (ℤ × V)) : purge L (rem ++ [k]) = purge L rem := by
  induction L with
  | nil => rfl
  | cons e t ih =>
    have hek : e.1 ≠ k := by
      intro hq
      exact hk (hq ▸ List.mem_map.mpr ⟨e, List.mem_cons_self e t, rfl⟩)
    have hk' : k ∉ keysOf t := by
      intro hq
      rw [keysOf, List.map_cons] at hk
      exact hk (List.mem_cons_of_mem _ hq)
    rw [purge_cons, purge_cons, ih hk']
    have hiff : (e.1 ∈ rem ++ [k]) ↔ e.1 ∈ rem := by
      rw [List.mem_append, List.mem_singleton]
      exact ⟨fun h => h.resolve_right hek, Or.inl⟩
    by_cases h1 : e.1 ∈ rem
    · rw [if_pos h1, if_pos (hiff.mpr h1)]
    · rw [if_neg h1, if_neg (fun h => h1 (hiff.mp h))]

/-- Collecting the key of an allocated entry removes exactly that entry
from the surviving allocated count, when keys are unique. -/
lemma alloc_purge_snoc {L : List ((ℤ × V) × FareInfo V)} (hnd : (keysOf L).Nodup)
    {e : (ℤ × V) × FareInfo V} (he : e ∈ L) {rem : List (ℤ × V)} (hrem : e.1 ∉ rem)
    (hal : e.2.allocated = true) :
    allocatedCount (purge L (rem ++ [e.1])) + 1 = allocatedCount (purge L rem) := by
  induction L with
  | nil => simp at he
  | cons f t ih =>
    rcases List.mem_cons.mp he with rfl | het
    · have hkeys : e.1 ∉ keysOf t := by
        rw [keysOf, List.map_cons, List.nodup_cons] at hnd
        exact hnd.1
      rw [purge_cons, purge_cons,
        if_pos (List.mem_append.mpr (Or.inr (List.mem_singleton.mpr rfl))), if_neg hrem,
        purge_snoc_absent hkeys, allocatedCount_cons, hal]
      simp
      omega
    · have hne : e.1 ≠ f.1 := key_ne_of_nodup hnd het
      have hiff : (f.1 ∈ rem ++ [e.1]) ↔ f.1 ∈ rem := by
        rw [List.mem_append, List.mem_singleton]
        exact ⟨fun h => h.resolve_right (fun hq => hne hq.symm), Or.inl⟩
      rw [purge_cons, purge_cons]
      by_cases h1 : f.1 ∈ rem
      · rw [if_pos h1, if_pos (hiff.mpr h1)]
        exact ih (nodup_keys_tail hnd) het
      · rw [if_neg h1, if_neg (fun h => h1 (hiff.mp h)), allocatedCount_cons,
          allocatedCount_cons]
        have := ih (nodup_keys_tail hnd) het
        omega

lemma keysOf_append {α β : Type} (a b : List (α × β)) :
    keysOf (a ++ b) = keysOf a ++ keysOf b := by
  unfold keysOf
  rw [List.map_append]

variable (map : KMap V) (maxW acct simTime : ℤ) (l : V) (orc : ℕ → Option V)

/-- The sweep preserves the ledger's key sequence (bid-flag updates keep the
key, and deletions are deferred to `toRemove`). -/
lemma sweepGo_fares_keys :
    ∀ (todo done : List ((ℤ × V) × FareInfo V)) (pass : Option V) (path : List V)
      (rem picked : List (ℤ × V)) (bids : List V) (calls : ℕ),
      keysOf (sweepGo map maxW acct simTime l orc done todo pass path rem picked bids
        calls).fares = keysOf (done ++ todo) := by
  intro todo
  induction todo with
  | nil =>
    intro done pass path rem picked bids calls
    rw [List.append_nil]
    rfl
  | cons e t ih =>
    intro done pass path rem picked bids calls
    have hshift : ∀ (x : (ℤ × V) × FareInfo V), x.1 = e.1 →
        keysOf ((done ++ [x]) ++ t) = keysOf (done ++ e :: t) := by
      intro x hx
      rw [keysOf_append, keysOf_append, keysOf_append]
      rw [show keysOf [x] = [x.1] from rfl, show keysOf (e :: t) = e.1 :: keysOf t from rfl,
        hx, List.append_assoc]
      rfl
    rw [sweepGo]
    dsimp only
    by_cases h1 : e.2.allocated = true ∧ pass = none
    · rw [if_pos h1]
      by_cases h2 : l = e.1.2
      · rw [if_pos h2]
        cases orc calls with
        | some pdest => rw [ih]; exact hshift e rfl
        | none => rw [ih]; exact hshift e rfl
      · rw [if_neg h2]
        by_cases h3 : path = []
        · rw [if_pos h3, ih]; exact hshift e rfl
        · rw [if_neg h3, ih]; exact hshift e rfl
    · rw [if_neg h1]
      by_cases h2 : simTime - e.1.1 > maxW
      · rw [if_pos h2, ih]; exact hshift e rfl
      · rw [if_neg h2]
        by_cases h3 : e.2.bid = 0
        · rw [if_pos h3]
          by_cases h4 : bidOnFare map (done ++ e :: t) pass acct maxW l simTime e.1.1 e.1.2
              e.2.destination e.2.price = true
          · rw [if_pos h4, ih]; exact hshift (e.1, { e.2 with bid := 1 }) rfl
          · rw [if_neg h4, ih]; exact hshift (e.1, { e.2 with bid := -1 }) rfl
        · rw [if_neg h3, ih]; exact hshift e rfl

/-- Through the sweep and the deferred deletions, the number of carried
passengers plus surviving allocated entries never grows: a successful
pickup trades the allocated entry it removes for the passenger it seats,
and every other mutation only expires entries or flips bid flags. -/
lemma sweepGo_commit_le :
    ∀ (todo done : List ((ℤ × V) × FareInfo V)) (pass : Option V) (path : List V)
      (rem picked : List (ℤ × V)) (bids : List V) (calls : ℕ),
      (keysOf (done ++ todo)).Nodup → (∀ k ∈ rem, k ∉ keysOf todo) →
      passCnt (sweepGo map maxW acct simTime l orc done todo pass path rem picked bids
          calls).passenger
        + allocatedCount (purge
            (sweepGo map maxW acct simTime l orc done todo pass path rem picked bids
              calls).fares
            (sweepGo map maxW acct simTime l orc done todo pass path rem picked bids
              calls).toRemove)
      ≤ passCnt pass + allocatedCount (purge (done ++ todo) rem) := by
  intro todo
  induction todo with
  | nil =>
    intro done pass path rem picked bids calls _ _
    rw [List.append_nil]
    exact le_refl _
  | cons e t ih =>
    intro done pass path rem picked bids calls hnd hrem
    have hLassoc : ∀ (x : (ℤ × V) × FareInfo V), (done ++ [x]) ++ t = done ++ x :: t := by
      intro x
      rw [List.append_assoc]
      rfl
    have hein : e ∈ done ++ e :: t :=
      List.mem_append.mpr (Or.inr (List.mem_cons_self e t))
    have hekey : e.1 ∉ rem := by
      intro hq
      exact hrem e.1 hq (List.mem_map.mpr ⟨e, List.mem_cons_self e t, rfl⟩)
    have hetail : e.1 ∉ keysOf t := by
      have := hnd
      rw [keysOf_append, List.nodup_append] at this
      have h2 := this.2.1
      rw [show keysOf (e :: t) = e.1 :: keysOf t from rfl, List.nodup_cons] at h2
      exact h2.1
    have hrem' : ∀ k ∈ rem, k ∉ keysOf t := by
      intro k hk hq
      refine hrem k hk ?_
      rw [show keysOf (e :: t) = e.1 :: keysOf t from rfl]
      exact List.mem_cons_of_mem _ hq
    have hremsnoc : ∀ k ∈ rem ++ [e.1], k ∉ keysOf t := by
      intro k hk
      rcases List.mem_append.mp hk with hk | hk
      · exact hrem' k hk
      · rw [List.mem_singleton] at hk
        subst hk
        exact hetail
    have hndshift : (keysOf ((done ++ [e]) ++ t)).Nodup := by
      rw [hLassoc]
      exact hnd
    rw [sweepGo]
    dsimp only
    by_cases h1 : e.2.allocated = true ∧ pass = none
    · rw [if_pos h1]
      by_cases h2 : l = e.1.2
      · rw [if_pos h2]
        cases horc : orc calls with
        | some pdest =>
          -- successful pickup: passenger seated, allocated entry collected
          dsimp only
          have hIH := ih (done ++ [e]) (some pdest) (planPath map l pdest) (rem ++ [e.1])
            (picked ++ [e.1]) bids (calls + 1) hndshift hremsnoc
          rw [hLassoc] at hIH
          have hsnoc := alloc_purge_snoc (L := done ++ e :: t) hnd hein hekey h1.1
          rw [h1.2]
          rw [show passCnt (some pdest) = 1 from rfl] at hIH
          rw [show passCnt (none : Option V) = 0 from rfl]
          omega
        | none =>
          have hIH := ih (done ++ [e]) none path rem picked bids (calls + 1) hndshift hrem'
          rw [hLassoc] at hIH
          rw [h1.2]
          exact hIH
      · rw [if_neg h2]
        by_cases h3 : path = []
        · rw [if_pos h3]
          have hIH := ih (done ++ [e]) pass (planPath map l e.1.2) rem picked bids calls
            hndshift hrem'
          rw [hLassoc] at hIH
          exact hIH
        · rw [if_neg h3]
          have hIH := ih (done ++ [e]) pass path rem picked bids calls hndshift hrem'
          rw [hLassoc] at hIH
          exact hIH
    · rw [if_neg h1]
      by_cases h2 : simTime - e.1.1 > maxW
      · rw [if_pos h2]
        -- expiry: one more key collected, the surviving count cannot grow
        have hIH := ih (done ++ [e]) pass path (rem ++ [e.1]) picked bids calls hndshift
          hremsnoc
        rw [hLassoc] at hIH
        have hmono : allocatedCount (purge (done ++ e :: t) (rem ++ [e.1]))
            ≤ allocatedCount (purge (done ++ e :: t) rem) :=
          alloc_purge_mono (done ++ e :: t) (fun k hk => List.mem_append.mpr (Or.inl hk))
        omega
      · rw [if_neg h2]
        have hbid : ∀ (info' : FareInfo V), info'.allocated = e.2.allocated →
            allocatedCount (purge (done ++ (e.1, info') :: t) rem)
              = allocatedCount (purge (done ++ e :: t) rem) := by
          intro info' hinfo
          rw [purge_append, purge_append, purge_cons, purge_cons, allocatedCount_append,
            allocatedCount_append]
          by_cases hq : e.1 ∈ rem
          · rw [if_pos hq, if_pos hq]
          · rw [if_neg hq, if_neg hq, allocatedCount_cons, allocatedCount_cons]
            dsimp only
            rw [hinfo]
        have hndbid : ∀ (info' : FareInfo V),
            (keysOf ((done ++ [(e.1, info')]) ++ t)).Nodup := by
          intro info'
          have h5 : keysOf ((done ++ [(e.1, info')]) ++ t) = keysOf (done ++ e :: t) := by
            simp [keysOf, List.map_append]
          rw [h5]
          exact hnd
        by_cases h3 : e.2.bid = 0
        · rw [if_pos h3]
          by_cases h4 : bidOnFare map (done ++ e :: t) pass acct maxW l simTime e.1.1 e.1.2
              e.2.destination e.2.price = true
          · rw [if_pos h4]
            have hIH := ih (done ++ [(e.1, { e.2 with bid := 1 })]) pass path rem picked
              (bids ++ [e.1.2]) calls (hndbid _) hrem'
            rw [hLassoc] at hIH
            rw [hbid { e.2 with bid := 1 } rfl] at hIH
            exact hIH
          · rw [if_neg h4]
            have hIH := ih (done ++ [(e.1, { e.2 with bid := -1 })]) pass path rem picked
              bids calls (hndbid _) hrem'
            rw [hLassoc] at hIH
            rw [hbid { e.2 with bid := -1 } rfl] at hIH
            exact hIH
        · rw [if_neg h3]
          have hIH := ih (done ++ [e]) pass path rem picked bids calls hndshift hrem'
          rw [hLassoc] at hIH
          exact hIH

/-- A tick never increases the number of commitments. -/
lemma clockTick_commit_le (orcT : TickOracle V) (t : ℤ) (l : V) (st : TaxiState V)
    (hnd : (keysOf st.fares).Nodup) :
    commitCount (clockTick orcT t l st).1 ≤ commitCount st := by
  have main : ∀ (st1 : TaxiState V), st1.fares = st.fares → st1.passenger = st.passenger →
      st1.map = st.map → st1.maxFareWait = st.maxFareWait → st1.account = st.account →
      st1.path = st.path →
      passCnt (tickSweep orcT t l st1).passenger
        + allocatedCount (purge (tickSweep orcT t l st1).fares
            (tickSweep orcT t l st1).toRemove)
      ≤ commitCount st := by
    intro st1 h1 h2 h3 h4 h5 h6
    unfold tickSweep
    dsimp only
    rw [h1, h2, h3, h4, h5, h6]
    set pass0 := (match st.passenger with
      | some p => if orcT.dropoffOk = true then none else some p
      | none => none) with hpass0
    have hb := sweepGo_commit_le st.map st.maxFareWait st.account t l orcT.pickup st.fares []
      pass0 st.path [] [] [] 0 (by rw [List.nil_append]; exact hnd)
      (by intro k hk; simp at hk)
    rw [List.nil_append, purge_nil_rem] at hb
    have hpc : passCnt pass0 ≤ passCnt st.passenger := by
      rw [hpass0]
      cases st.passenger with
      | none => exact le_refl _
      | some p =>
        dsimp only
        by_cases hdo : orcT.dropoffOk = true
        · rw [if_pos hdo]
          exact Nat.zero_le _
        · rw [if_neg hdo]
    unfold commitCount
    omega
  unfold clockTick
  by_cases ha : st.account ≤ 0
  · rw [if_pos ha]
    by_cases hp : ({ st with onDuty := false, offDutyTime := t } : TaxiState V).path = []
    · rw [if_pos hp]
      exact main _ rfl rfl rfl rfl rfl rfl
    · rw [if_neg hp]
      exact le_refl _
  · rw [if_neg ha]
    by_cases hp : st.path = []
    · rw [if_pos hp]
      exact main st rfl rfl rfl rfl rfl rfl
    · rw [if_neg hp]
      exact le_refl _

/-- A tick keeps the ledger's keys duplicate-free. -/
lemma clockTick_keys_nodup (orcT : TickOracle V) (t : ℤ) (l : V) (st : TaxiState V)
    (hnd : (keysOf st.fares).Nodup) :
    (keysOf (clockTick orcT t l st).1.fares).Nodup := by
  have main : ∀ (st1 : TaxiState V), st1.fares = st.fares →
      (keysOf (purge (tickSweep orcT t l st1).fares
        (tickSweep orcT t l st1).toRemove)).Nodup := by
    intro st1 h1
    have hkeys : keysOf (tickSweep orcT t l st1).fares = keysOf st1.fares := by
      unfold tickSweep
      rw [sweepGo_fares_keys, List.nil_append]
    have hsub : List.Sublist
        (keysOf (purge (tickSweep orcT t l st1).fares (tickSweep orcT t l st1).toRemove))
        (keysOf (tickSweep orcT t l st1).fares) := by
      unfold purge keysOf
      exact (List.filter_sublist _).map _
    refine List.Nodup.sublist hsub ?_
    rw [hkeys, h1]
    exact hnd
  unfold clockTick
  by_cases ha : st.account ≤ 0
  · rw [if_pos ha]
    by_cases hp : ({ st with onDuty := false, offDutyTime := t } : TaxiState V).path = []
    · rw [if_pos hp]
      exact main _ rfl
    · rw [if_neg hp]
      exact hnd
  · rw [if_neg ha]
    by_cases hp : st.path = []
    · rw [if_pos hp]
      exact main st rfl
    · rw [if_neg hp]
      exact hnd

/-- A fresh advice entry is unallocated, so an upsert never increases the
allocated count. -/
lemma upsert_alloc_le (L : List ((ℤ × V) × FareInfo V)) (k : ℤ × V) (d : V) (p : ℤ) :
    allocatedCount (upsert L k (FareInfo.fresh d p)) ≤ allocatedCount L := by
  induction L with
  | nil =>
    rw [upsert, allocatedCount_cons]
    simp [FareInfo.fresh, allocatedCount]
  | cons e t ih =>
    rw [upsert]
    by_cases h : e.1 = k
    · rw [if_pos h, allocatedCount_cons, allocatedCount_cons]
      have : (FareInfo.fresh d p : FareInfo V).allocated = false := rfl
      rw [this]
      simp only [Bool.false_eq_true, if_false]
      omega
    · rw [if_neg h, allocatedCount_cons, allocatedCount_cons]
      omega

lemma keysOf_upsert_not_mem {L : List ((ℤ × V) × FareInfo V)} {k : ℤ × V}
    (hk : k ∉ keysOf L) (b : FareInfo V) : keysOf (upsert L k b) = keysOf L ++ [k] := by
  induction L with
  | nil => rfl
  | cons e t ih =>
    have hek : e.1 ≠ k := by
      intro hq
      exact hk (hq ▸ List.mem_map.mpr ⟨e, List.mem_cons_self e t, rfl⟩)
    have hk' : k ∉ keysOf t := by
      intro hq
      rw [keysOf, List.map_cons] at hk
      exact hk (List.mem_cons_of_mem _ hq)
    rw [upsert, if_neg hek]
    rw [show keysOf (e :: upsert t k b) = e.1 :: keysOf (upsert t k b) from rfl, ih hk',
      show keysOf (e :: t) = e.1 :: keysOf t from rfl]
    rfl

lemma nodup_upsert {L : List ((ℤ × V) × FareInfo V)} (hnd : (keysOf L).Nodup)
    (k : ℤ × V) (b : FareInfo V) : (keysOf (upsert L k b)).Nodup := by
  by_cases hk : k ∈ keysOf L
  · rw [keysOf_upsert_of_mem b hk]
    exact hnd
  · rw [keysOf_upsert_not_mem hk b, List.nodup_append]
    refine ⟨hnd, List.nodup_singleton k, ?_⟩
    intro a ha hb
    rw [List.mem_singleton] at hb
    subst hb
    exact hk ha

/-- A confirmation sets at most one allocation flag. -/
lemma allocFirst_alloc_le (L : List ((ℤ × V) × FareInfo V)) (o d : V) :
    allocatedCount (allocFirst L o d) ≤ allocatedCount L + 1 := by
  induction L with
  | nil => simp [allocFirst, allocatedCount]
  | cons e t ih =>
    rw [allocFirst]
    by_cases h : e.1.2 = o ∧ e.2.destination = d
    · rw [if_pos h, allocatedCount_cons, allocatedCount_cons]
      have : ({ e.2 with allocated := true } : FareInfo V).allocated = true := rfl
      rw [this]
      simp only [if_true]
      omega
    · rw [if_neg h, allocatedCount_cons, allocatedCount_cons]
      omega

lemma keysOf_allocFirst (L : List ((ℤ × V) × FareInfo V)) (o d : V) :
    keysOf (allocFirst L o d) = keysOf L := by
  induction L with
  | nil => rfl
  | cons e t ih =>
    rw [allocFirst]
    by_cases h : e.1.2 = o ∧ e.2.destination = d
    · rw [if_pos h]
      rfl
    · rw [if_neg h]
      rw [show keysOf (e :: allocFirst t o d) = e.1 :: keysOf (allocFirst t o d) from rfl, ih]
      rfl

lemma cancelFirst_sublist (L : List ((ℤ × V) × FareInfo V)) (o : V) :
    (cancelFirst L o).Sublist L := by
  induction L with
  | nil => exact List.Sublist.refl _
  | cons e t ih =>
    rw [cancelFirst]
    by_cases h : e.1.2 = o ∧ e.2.allocated = true
    · rw [if_pos h]
      exact List.sublist_cons_self e t
    · rw [if_neg h]
      exact ih.cons₂ e

lemma cancelFirst_alloc_le (L : List ((ℤ × V) × FareInfo V)) (o : V) :
    allocatedCount (cancelFirst L o) ≤ allocatedCount L := by
  unfold allocatedCount
  exact ((cancelFirst_sublist L o).filter _).length_le

/-- The transition-confirmation and leg-commit logic never touches the
passenger, the ledger, or the account. -/
lemma driveCommit_ok_same {turnRes : Option V × ℤ} {st st' : TaxiState V}
    (h : driveCommit turnRes st = .ok st') :
    st'.passenger = st.passenger ∧ st'.fares = st.fares ∧ st'.account = st.account := by
  unfold driveCommit at h
  by_cases h1 : st.nextLoc = none ∧ st.path ≠ []
  · rw [if_pos h1] at h
    cases hloc : st.loc with
    | none =>
      rw [hloc] at h
      exact Except.noConfusion h
    | some l =>
      rw [hloc] at h
      dsimp only at h
      by_cases hk : l ∉ keysOf st.map
      · rw [if_pos hk] at h
        exact Except.noConfusion h
      · rw [if_neg hk] at h
        cases hhd : (if st.path.head? = some l then st.path.tail else st.path).head? with
        | none =>
          rw [hhd] at h
          exact Except.noConfusion h
        | some nxt =>
          rw [hhd] at h
          dsimp only at h
          by_cases hw : (edgeW st.map l nxt).isNone = true
          · rw [if_pos hw] at h
            exact Except.noConfusion h
          · rw [if_neg hw] at h
            cases h
            exact ⟨rfl, rfl, rfl⟩
  · rw [if_neg h1] at h
    cases h
    exact ⟨rfl, rfl, rfl⟩

lemma drive_ok_same {orcD : DriveOracle V} {p : Option V × ℤ} {st st' : TaxiState V}
    (h : drive orcD p st = .ok st') :
    st'.passenger = st.passenger ∧ st'.fares = st.fares ∧ st'.account = st.account := by
  unfold drive at h
  by_cases h1 : st.nextLoc ≠ none ∧ p.1 = st.nextLoc ∧ p.2 = st.nextDirection
  · rw [if_pos h1] at h
    dsimp only at h
    by_cases h2 : (if st.loc = none then orcD.occupyRes else orcD.vacateRes).1 = p.1 ∧
        (if st.loc = none then orcD.occupyRes else orcD.vacateRes).2 = p.2
    · rw [if_pos h2] at h
      by_cases h3 : ({ st with loc := st.nextLoc, direction := st.nextDirection, nextLoc := none, nextDirection := -1 } : TaxiState V).path ≠ []
      · rw [if_pos h3] at h
        by_cases h4 : ({ st with loc := st.nextLoc, direction := st.nextDirection, nextLoc := none, nextDirection := -1 } : TaxiState V).path.head? = ({ st with loc := st.nextLoc, direction := st.nextDirection, nextLoc := none, nextDirection := -1 } : TaxiState V).loc
        · rw [if_pos h4] at h
          have h5 := driveCommit_ok_same h
          exact h5
        · rw [if_neg h4] at h
          cases h
          exact ⟨rfl, rfl, rfl⟩
      · rw [if_neg h3] at h
        have h5 := driveCommit_ok_same h
        exact h5
    · rw [if_neg h2] at h
      exact driveCommit_ok_same h
  · rw [if_neg h1] at h
    exact driveCommit_ok_same h

/-- One restricted event preserves the single-commitment bound together
with key uniqueness of the ledger. -/
lemma stepR_commit_inv {st st' : TaxiState V} (h : StepR st st')
    (hc : commitCount st ≤ 1) (hnd : (keysOf st.fares).Nodup) :
    commitCount st' ≤ 1 ∧ (keysOf st'.fares).Nodup := by
  cases h with
  | advice t o d p =>
    constructor
    · have h1 := upsert_alloc_le st.fares (t, o) d p
      have hc2 : passCnt st.passenger + allocatedCount st.fares ≤ 1 := hc
      show passCnt st.passenger
        + allocatedCount (upsert st.fares (t, o) (FareInfo.fresh d p)) ≤ 1
      omega
    · exact nodup_upsert hnd (t, o) (FareInfo.fresh d p)
  | alloc o d hg =>
    constructor
    · have h1 := allocFirst_alloc_le st.fares o d
      have h0 : passCnt st.passenger = 0 := by rw [hg.1]; rfl
      have h2 := hg.2
      show passCnt st.passenger + allocatedCount (allocFirst st.fares o d) ≤ 1
      omega
    · show (keysOf (allocFirst st.fares o d)).Nodup
      rw [keysOf_allocFirst]
      exact hnd
  | pay a => exact ⟨hc, hnd⟩
  | cancel o =>
    constructor
    · have h1 := cancelFirst_alloc_le st.fares o
      have hc2 : passCnt st.passenger + allocatedCount st.fares ≤ 1 := hc
      show passCnt st.passenger + allocatedCount (cancelFirst st.fares o) ≤ 1
      omega
    · show (List.map (fun e => e.1) (cancelFirst st.fares o)).Nodup
      exact hnd.sublist ((cancelFirst_sublist st.fares o).map _)
  | tick orc t l hl =>
    exact ⟨le_trans (clockTick_commit_le orc t l st hnd) hc,
      clockTick_keys_nodup orc t l st hnd⟩
  | drv _ orc p hok =>
    obtain ⟨hp, hf, _⟩ := drive_ok_same hok
    unfold commitCount at hc ⊢
    constructor
    · rw [hp, hf]
      exact hc
    · rw [hf]
      exact hnd

/-- Under the single-allocation dispatcher the commitment bound and key
uniqueness hold in every state reachable from the initial state. -/
lemma reachR_commit_inv (map : KMap V) (maxWait offDutyTime : ℤ) (s : TaxiState V)
    (h : ReachR (initTaxi map maxWait offDutyTime) s) :
    commitCount s ≤ 1 ∧ (keysOf s.fares).Nodup := by
  unfold ReachR at h
  induction h with
  | refl => exact ⟨Nat.zero_le 1, List.nodup_nil⟩
  | tail h1 h2 ih => exact stepR_commit_inv h2 ih.1 ih.2

end Commit

/-! ## Claims -/

/-- A concrete knowledge map on three nodes used by witnesses: a cheap
two-hop chain `0 → 1 → 2` beside a costly direct edge `0 → 2`, and an edge
back from `2`. -/
def exMap : KMap (Fin 3) := [(0, [(1, 1), (2, 5)]), (1, [(2, 1)]), (2, [(0, 1)])]

/-- **C1**: on every well-formed knowledge map (a graph: distinct node keys,
distinct neighbour keys per node, the origin a node, every neighbour again a
node) with non-negative edge weights, and every origin/destination pair,
`_planPath` returns a route from origin to destination whose total edge
weight equals the true shortest-path distance (it is a route, and no route
from origin to destination has smaller total weight), and it returns the
empty route exactly when no route exists; unreachability yields the empty
route of the total function, not an error. -/
theorem C1_planPath_shortest {V : Type} [DecidableEq V] [LinearOrder V]
    (M : KMap V) (o dst : V)
    (hkeys : (keysOf M).Nodup) (Hnb : NbrKeysNodup M) (ho : o ∈ keysOf M)
    (hclosed : ∀ q ∈ M, ∀ e ∈ q.2, e.1 ∈ keysOf M) :
    (planPath M o dst = [] ↔ ¬∃ p, IsRoute M o dst p) ∧
    ((∃ p, IsRoute M o dst p) →
      IsRoute M o dst (planPath M o dst) ∧
      ∀ q, IsRoute M o dst q → chainW M (planPath M o dst) ≤ chainW M q) :=
  planPath_spec M Hnb o dst

/-- Witness for C1 at a concrete map: the hypotheses hold, the planner
computes the route `[0, 1, 2]` (weight 2, beating the direct edge of weight
5), and the conclusion is obtained from the theorem. -/
theorem C1_planPath_shortest_witness :
    ((keysOf exMap).Nodup ∧ NbrKeysNodup exMap ∧ (0 : Fin 3) ∈ keysOf exMap ∧
      (∀ q ∈ exMap, ∀ e ∈ q.2, e.1 ∈ keysOf exMap)) ∧
    planPath exMap 0 2 = [0, 1, 2] ∧
    ((planPath exMap 0 2 = [] ↔ ¬∃ p, IsRoute exMap 0 2 p) ∧
      ((∃ p, IsRoute exMap 0 2 p) →
        IsRoute exMap 0 2 (planPath exMap 0 2) ∧
        ∀ q, IsRoute exMap 0 2 q → chainW exMap (planPath exMap 0 2) ≤ chainW exMap q)) :=
  ⟨⟨by decide, by unfold NbrKeysNodup; decide, by decide, by decide⟩, by decide,
    C1_planPath_shortest exMap 0 2 (by decide) (by unfold NbrKeysNodup; decide)
      (by decide) (by decide)⟩

/-- **C2**: `_bidOnFare(time, origin, destination, price)` bids exactly when
all of the following hold: no passenger aboard and no allocated ledger
entry; the account strictly exceeds the origin-leg time cost (route length
times 2); the price strictly exceeds the sum of the two leg costs; the
offer's age is strictly below the maximum fare wait; the remaining wait
strictly exceeds the origin-leg cost; and both planned routes are non-empty
(both leg estimates finite). -/
theorem C2_bidOnFare_iff {V : Type} [DecidableEq V] [LinearOrder V]
    (map : KMap V) (fares : List ((ℤ × V) × FareInfo V)) (passenger : Option V)
    (account maxFareWait : ℤ) (locIdx : V) (simTime time : ℤ)
    (origin destination : V) (price : ℤ) :
    bidOnFare map fares passenger account maxFareWait locIdx simTime time origin
        destination price = true ↔
      ((passenger = none ∧ allocatedCount fares = 0) ∧
        account > 2 * ((planPath map locIdx origin).length : ℤ) ∧
        price > 2 * ((planPath map locIdx origin).length : ℤ)
          + 2 * ((planPath map origin destination).length : ℤ) ∧
        simTime - time < maxFareWait ∧
        maxFareWait - (simTime - time) > 2 * ((planPath map locIdx origin).length : ℤ) ∧
        planPath map locIdx origin ≠ [] ∧ planPath map origin destination ≠ []) :=
  bidOnFare_eq_true_iff map fares passenger account maxFareWait locIdx simTime time origin
    destination price

/-- **C8**: delivering `FARE_ALLOC` twice with the same origin and
destination leaves the ledger (indeed the whole state) as after the first
delivery, and a `FARE_ALLOC` matching no ledger entry leaves the entire
state unchanged (and raises nothing: the handler is total). -/
theorem C8_alloc_idempotent_and_ignored {V : Type} [DecidableEq V] [LinearOrder V]
    (st : TaxiState V) (origin destination : V) :
    recvAlloc (recvAlloc st origin destination) origin destination
        = recvAlloc st origin destination ∧
      ((∀ e ∈ st.fares, ¬(e.1.2 = origin ∧ e.2.destination = destination)) →
        recvAlloc st origin destination = st) := by
  constructor
  · unfold recvAlloc
    dsimp only
    rw [allocFirst_idem]
  · intro h
    unfold recvAlloc
    rw [allocFirst_nomatch h]

/-- A concrete taxi state with a two-entry ledger, used by witnesses. -/
def exState : TaxiState (Fin 3) :=
  { initTaxi exMap 50 0 with
      fares := [((0, 1), ⟨2, 100, 1, false⟩), ((0, 2), ⟨0, 7, 0, false⟩)] }

/-- Witness for C8: on a concrete two-entry ledger, re-confirming the fare
from origin 1 to destination 2 is a no-op, and confirming a fare matching
no entry leaves the state unchanged. -/
theorem C8_alloc_idempotent_and_ignored_witness :
    (recvAlloc (recvAlloc exState 1 2) 1 2 = recvAlloc exState 1 2) ∧
    recvAlloc exState 0 0 = exState :=
  ⟨(C8_alloc_idempotent_and_ignored exState 1 2).1,
    (C8_alloc_idempotent_and_ignored exState 0 0).2 (by decide)⟩

/-- **C10**: a `FARE_ADVICE` whose composite key (current time, origin)
already exists in the ledger silently replaces that entry with a fresh one
(undecided bid, allocation flag clear, the new destination and price),
keeps every other entry's lookup unchanged, and preserves the ledger's
size and key sequence. -/
theorem C10_advice_replaces {V : Type} [DecidableEq V] [LinearOrder V]
    (st : TaxiState V) (t : ℤ) (origin destination : V) (price : ℤ)
    (hk : (t, origin) ∈ keysOf st.fares) :
    lookupKey (recvAdvice st t origin destination price).fares (t, origin)
        = some (FareInfo.fresh destination price) ∧
    (∀ k, k ≠ (t, origin) →
      lookupKey (recvAdvice st t origin destination price).fares k
        = lookupKey st.fares k) ∧
    (recvAdvice st t origin destination price).fares.length = st.fares.length ∧
    keysOf (recvAdvice st t origin destination price).fares = keysOf st.fares := by
  refine ⟨lookupKey_upsert_self _ _ _, fun k hne => lookupKey_upsert_ne _ _ _ _ hne,
    upsert_length_of_mem _ hk, keysOf_upsert_of_mem _ hk⟩

/-- A tick oracle on which every node interaction fails: drop-off refused,
no pickup handed over. -/
def exOracle : TickOracle (Fin 3) := ⟨false, fun _ => none⟩

/-- Claim **C4** as stated (at the witness node type): whenever a tick
starts with a non-positive balance, the taxi goes off-duty recording the
time and no further decision of any kind is taken that tick, i.e. the
resulting state differs only by the off-duty marking and the flat debit,
and no bid is transmitted. -/
def C4_claim : Prop :=
  ∀ (orc : TickOracle (Fin 3)) (t : ℤ) (l : Fin 3) (st : TaxiState (Fin 3)),
    st.account ≤ 0 →
    (clockTick orc t l st).1 =
      { st with onDuty := false, offDutyTime := t, account := st.account - 1 } ∧
    (clockTick orc t l st).2 = []

/-- A broke taxi holding one stale, declined, unallocated offer. -/
def cexSt4 : TaxiState (Fin 3) :=
  { initTaxi exMap 50 0 with
      loc := some 0
      fares := [((0, 1), ⟨2, 100, -1, false⟩)] }

/-- C4 fails on the code: with balance 0 at time 51 the tick does go
off-duty, but the decision sweep still runs and expires the stale offer —
the ledger is mutated after the off-duty transition in the same tick. -/
theorem C4_counterexample : ¬C4_claim := by
  intro h
  have h2 := (h exOracle 51 0 cexSt4 (by decide)).1
  exact absurd h2 (by decide)

/-- **C4 amended**: with a non-positive balance the tick does transition
off-duty first, recording the current time, and transmits no bid that tick
(the affordability criterion fails); but the rest of the decision routine —
drop-off, pickup, routing, offer expiry, recording declined bids — still
executes during the same tick. -/
theorem C4_offduty_amended {V : Type} [DecidableEq V] [LinearOrder V]
    (orc : TickOracle V) (t : ℤ) (l : V) (st : TaxiState V) (h : st.account ≤ 0) :
    (clockTick orc t l st).1.onDuty = false ∧
    (clockTick orc t l st).1.offDutyTime = t ∧
    (clockTick orc t l st).2 = [] := by
  unfold clockTick
  rw [if_pos h]
  by_cases hp : ({ st with onDuty := false, offDutyTime := t } : TaxiState V).path = []
  · rw [if_pos hp]
    refine ⟨rfl, rfl, ?_⟩
    unfold tickSweep
    exact sweepGo_bids_nonpos _ _ _ _ _ h _ _ _ _ _ _ _ _
  · rw [if_neg hp]
    exact ⟨rfl, rfl, rfl⟩

/-- Witness for the amended C4, at the counterexample state: off-duty at
time 51, recorded, and no bid transmitted. -/
theorem C4_offduty_amended_witness :
    (clockTick exOracle 51 0 cexSt4).1.onDuty = false ∧
    (clockTick exOracle 51 0 cexSt4).1.offDutyTime = 51 ∧
    (clockTick exOracle 51 0 cexSt4).2 = [] :=
  C4_offduty_amended exOracle 51 0 cexSt4 (by decide)

/-- Claim **C6** as stated (at the witness node type): the per-tick
decision routine runs exactly when the route is empty *and* no transition
is pending, so with a non-empty route or a pending next location the ledger
is untouched and no bid is transmitted. -/
def C6_claim : Prop :=
  ∀ (orc : TickOracle (Fin 3)) (t : ℤ) (l : Fin 3) (st : TaxiState (Fin 3)),
    (st.path ≠ [] ∨ st.nextLoc ≠ none) →
    (clockTick orc t l st).1.fares = st.fares ∧ (clockTick orc t l st).2 = []

/-- A taxi with an empty route but a pending transition, holding a stale
unallocated offer. -/
def cexSt6 : TaxiState (Fin 3) :=
  { initTaxi exMap 50 0 with
      account := 100
      loc := some 0
      nextLoc := some 1
      fares := [((0, 1), ⟨2, 100, -1, false⟩)] }

/-- C6 fails on the code: `clockTick` guards the decision routine only by
`len(self._path) == 0`; with a pending transition and an empty route the
sweep still runs and expires the stale offer. -/
theorem C6_counterexample : ¬C6_claim := by
  intro h
  have h2 := (h exOracle 51 0 cexSt6 (Or.inr (by decide))).1
  exact absurd h2 (by decide)

/-- **C6 amended**: the decision routine is guarded by the route alone.
With a non-empty route the tick leaves everything but the duty fields and
the account unchanged and transmits no bid; a pending transition by itself
does not suppress the routine. -/
theorem C6_enroute_amended {V : Type} [DecidableEq V] [LinearOrder V]
    (orc : TickOracle V) (t : ℤ) (l : V) (st : TaxiState V) (h : st.path ≠ []) :
    (clockTick orc t l st).1 =
      { st with
          onDuty := if st.account ≤ 0 then false else st.onDuty
          offDutyTime := if st.account ≤ 0 then t else st.offDutyTime
          account := st.account - 1 } ∧
    (clockTick orc t l st).2 = [] := by
  unfold clockTick
  by_cases ha : st.account ≤ 0
  · rw [if_pos ha, if_neg (show ¬({ st with onDuty := false, offDutyTime := t } :
      TaxiState V).path = [] from h), if_pos ha, if_pos ha]
    exact ⟨rfl, rfl⟩
  · rw [if_neg ha, if_neg (show ¬st.path = [] from h), if_neg ha, if_neg ha]
    exact ⟨rfl, rfl⟩

/-- Witness for the amended C6: a taxi en route with a stale offer aboard
the ledger keeps it and only pays the time debit. -/
theorem C6_enroute_amended_witness :
    (clockTick exOracle 51 0 ({ cexSt6 with path := [1] })).1 =
      { ({ cexSt6 with path := [1] }) with
          onDuty := if ({ cexSt6 with path := [1] }).account ≤ 0 then false
                    else ({ cexSt6 with path := [1] }).onDuty
          offDutyTime := if ({ cexSt6 with path := [1] }).account ≤ 0 then 51
                         else ({ cexSt6 with path := [1] }).offDutyTime
          account := ({ cexSt6 with path := [1] }).account - 1 } ∧
    (clockTick exOracle 51 0 ({ cexSt6 with path := [1] })).2 = [] :=
  C6_enroute_amended exOracle 51 0 ({ cexSt6 with path := [1] }) (by decide)

/-- Claim **C9** as stated (at the witness node type): whenever `drive`
commits to a new route leg (no pending next location, non-empty route, a
known current position), it aborts with a fatal error exactly when the
current position is not a key of the knowledge map or the route's head is
not a recorded neighbour of the current position. -/
def C9_claim : Prop :=
  ∀ (orc : DriveOracle (Fin 3)) (p : Option (Fin 3) × ℤ) (st : TaxiState (Fin 3)) (l : Fin 3),
    st.loc = some l → st.nextLoc = none → st.path ≠ [] →
    ((∃ err, drive orc p st = .error err) ↔
      (l ∉ keysOf st.map ∨
        ∃ hd, st.path.head? = some hd ∧ edgeW st.map l hd = none))

/-- A drive oracle with fixed node responses. -/
def exDriveOracle : DriveOracle (Fin 3) := ⟨(none, -1), (none, -1), (some 1, 0), (none, -1)⟩

/-- A taxi standing on its sole remaining waypoint, on a map where that
node is a key and even carries a self-loop edge. -/
def cexSt9 : TaxiState (Fin 3) :=
  { initTaxi [(0, [(0, 1)])] 50 0 with
      loc := some 0
      path := [0] }

/-- C9 fails on the code: with route `[current]` the arrival pop empties
the route and `self._path[0]` then raises an `IndexError`, although the
position is on the map and the route's head is a recorded neighbour — an
abort the claimed condition does not cover. -/
theorem C9_counterexample : ¬C9_claim := by
  intro h
  have h2 := h exDriveOracle (none, -1) cexSt9 0 rfl rfl (by decide)
  have h3 : ∃ err, drive exDriveOracle (none, -1) cexSt9 = .error err :=
    ⟨.emptyPathIndex, rfl⟩
  have h4 := h2.mp h3
  revert h4
  decide

/-- **C9 amended**: on a leg commit the fatal aborts are exactly: current
position absent from the map; the route *after* the arrival pop empty (the
out-of-range read of `self._path[0]`); or the post-pop head not a recorded
neighbour of the current position.  Otherwise no error is raised. -/
theorem C9_drive_error_amended {V : Type} [DecidableEq V] [LinearOrder V]
    (orc : DriveOracle V) (p : Option V × ℤ) (st : TaxiState V) (l : V)
    (hloc : st.loc = some l) (hnl : st.nextLoc = none) (hne : st.path ≠ []) :
    ((∃ err, drive orc p st = .error err) ↔
      (l ∉ keysOf st.map ∨
        (if st.path.head? = some l then st.path.tail else st.path) = [] ∨
        ∃ hd, (if st.path.head? = some l then st.path.tail else st.path).head? = some hd ∧
          edgeW st.map l hd = none)) := by
  have hdrive : drive orc p st = driveCommit orc.turnRes st := by
    unfold drive
    rw [if_neg (by rw [hnl]; rintro ⟨hq, _⟩; exact hq rfl)]
  rw [hdrive]
  unfold driveCommit
  rw [if_pos ⟨hnl, hne⟩, hloc]
  dsimp only
  set path1 := if st.path.head? = some l then st.path.tail else st.path with hpath1
  by_cases hk : l ∈ keysOf st.map
  · rw [if_neg (by rwa [not_not])]
    cases hhd : path1.head? with
    | none =>
      have hp1 : path1 = [] := List.head?_eq_none_iff.mp hhd
      exact ⟨fun _ => Or.inr (Or.inl hp1), fun _ => ⟨.emptyPathIndex, rfl⟩⟩
    | some nxt =>
      dsimp only
      cases hw : edgeW st.map l nxt with
      | none =>
        rw [if_pos (show (none : Option ℕ).isNone = true from rfl)]
        exact ⟨fun _ => Or.inr (Or.inr ⟨nxt, rfl, hw⟩), fun _ => ⟨.noPathTo, rfl⟩⟩
      | some w =>
        rw [if_neg (by simp)]
        refine ⟨?_, ?_⟩
        · rintro ⟨err, herr⟩
          exact Except.noConfusion herr
        · rintro (hq | hq | ⟨hd, hd1, hd2⟩)
          · exact absurd hk hq
          · rw [hq] at hhd
            simp at hhd
          · cases hd1
            exact Option.noConfusion (hw.symm.trans hd2)
  · rw [if_pos hk]
    exact ⟨fun _ => Or.inl hk, fun _ => ⟨.fellOffMap, rfl⟩⟩

/-- Witness for the amended C9: at the counterexample state the taxi
aborts, and indeed the post-pop route is empty. -/
theorem C9_drive_error_amended_witness :
    ((∃ err, drive exDriveOracle (none, -1) cexSt9 = .error err) ↔
      ((0 : Fin 3) ∉ keysOf cexSt9.map ∨
        (if cexSt9.path.head? = some 0 then cexSt9.path.tail else cexSt9.path) = [] ∨
        ∃ hd, (if cexSt9.path.head? = some 0 then cexSt9.path.tail
               else cexSt9.path).head? = some hd ∧ edgeW cexSt9.map 0 hd = none)) :=
  C9_drive_error_amended exDriveOracle (none, -1) cexSt9 0 rfl rfl (by decide)

/-- Claim **C5** as stated (at the witness node type): during a tick's
decision sweep, a ledger entry is marked for removal as expired (collected
for removal other than by a successful pickup) exactly when it is
unallocated and strictly stale; in particular an allocated entry is never
expired, and an entry whose age equals the maximum wait is retained. -/
def C5_claim : Prop :=
  ∀ (orc : TickOracle (Fin 3)) (t : ℤ) (l : Fin 3) (st : TaxiState (Fin 3))
    (e : (ℤ × Fin 3) × FareInfo (Fin 3)),
    (keysOf st.fares).Nodup → e ∈ st.fares →
    ((e.1 ∈ (tickSweep orc t l st).toRemove ∧ e.1 ∉ (tickSweep orc t l st).picked) ↔
      (e.2.allocated = false ∧ t - e.1.1 > st.maxFareWait))

/-- A taxi carrying a passenger while an allocated, stale entry sits in the
ledger (reachable: the dispatcher can confirm two fares, and collecting the
first leaves the second allocated while a passenger is aboard). -/
def cexSt5 : TaxiState (Fin 3) :=
  { initTaxi exMap 50 0 with
      account := 100
      loc := some 0
      passenger := some 2
      fares := [((0, 1), ⟨2, 100, 1, true⟩)] }

/-- C5 fails on the code: with a passenger aboard, the pickup branch's
guard `fare.allocated and self._passenger is None` is false even for an
allocated entry, so the `elif` chain falls through to the expiry test and
expires the allocated entry. -/
theorem C5_counterexample : ¬C5_claim := by
  intro h
  have h2 := (h exOracle 51 0 cexSt5 ((0, 1), ⟨2, 100, 1, true⟩) (by decide)
    (by decide)).mp ⟨by decide, by decide⟩
  exact absurd h2.1 (by decide)

/-- **C5 amended**: an unallocated entry is expiry-marked exactly when
strictly stale (age equal to the maximum wait is retained) and is never
pickup-removed; when a passenger is aboard throughout the sweep, *every*
entry — allocated included — is expiry-marked exactly when strictly stale
and nothing is picked up; allocated entries are protected from expiry only
while no passenger is carried during the sweep. -/
theorem C5_expiry_amended {V : Type} [DecidableEq V] [LinearOrder V]
    (orc : TickOracle V) (t : ℤ) (l : V) (st : TaxiState V)
    (hnd : (keysOf st.fares).Nodup) :
    (∀ e ∈ st.fares, e.2.allocated = false →
      ((e.1 ∈ (tickSweep orc t l st).toRemove ↔ t - e.1.1 > st.maxFareWait) ∧
        e.1 ∉ (tickSweep orc t l st).picked)) ∧
    (∀ p : V, st.passenger = some p → orc.dropoffOk = false →
      (∀ e ∈ st.fares,
        (e.1 ∈ (tickSweep orc t l st).toRemove ↔ t - e.1.1 > st.maxFareWait)) ∧
      (tickSweep orc t l st).picked = []) ∧
    ((st.passenger = none ∨ orc.dropoffOk = true) → (∀ n, orc.pickup n = none) →
      ∀ e ∈ st.fares, e.2.allocated = true →
        e.1 ∉ (tickSweep orc t l st).toRemove) := by
  refine ⟨?_, ?_, ?_⟩
  · intro e he hal
    unfold tickSweep
    refine ⟨sweepGo_unalloc_rem _ _ _ _ _ _ _ _ _ _ _ _ _ _ e he hal hnd
      (by simp), ?_⟩
    intro hq
    rcases sweepGo_picked_bound st.map st.maxFareWait st.account t l orc.pickup
        _ _ _ _ _ _ _ _ _ hq with hr | ⟨g, hg, hgk, hga⟩
    · simp at hr
    · have := entry_eq_of_key_eq hnd hg he hgk
      rw [this] at hga
      rw [hal] at hga
      cases hga
  · intro p hp hd
    unfold tickSweep
    have hpass0 : (match st.passenger with
        | some q => if orc.dropoffOk = true then none else some q
        | none => none) = some p := by
      rw [hp]
      dsimp only
      rw [hd]
      simp
    rw [hpass0]
    refine ⟨?_, (sweepGo_pass_some st.map st.maxFareWait st.account t l orc.pickup
      _ _ _ _ _ _ _ _).2.1⟩
    intro e he
    exact (sweepGo_pass_some st.map st.maxFareWait st.account t l orc.pickup
      _ _ _ _ _ _ _ _).2.2 e he hnd (by simp)
  · intro hpass horc e he hal
    unfold tickSweep
    have hpass0 : (match st.passenger with
        | some p => if orc.dropoffOk = true then none else some p
        | none => none) = (none : Option V) := by
      rcases hpass with hp | hp
      · rw [hp]
      · cases hq : st.passenger with
        | none => rfl
        | some p =>
          dsimp only
          rw [hp]
          rfl
    rw [hpass0]
    exact sweepGo_alloc_protected st.map st.maxFareWait st.account t l orc.pickup horc
      _ _ _ _ _ _ _ e he hal hnd (by simp)

/-- Witness for the amended C5 at the counterexample state (passenger
aboard): the stale allocated entry is expiry-marked, nothing is picked. -/
theorem C5_expiry_amended_witness :
    (∀ e ∈ cexSt5.fares, e.2.allocated = false →
      ((e.1 ∈ (tickSweep exOracle 51 0 cexSt5).toRemove ↔
          51 - e.1.1 > cexSt5.maxFareWait) ∧
        e.1 ∉ (tickSweep exOracle 51 0 cexSt5).picked)) ∧
    (∀ p : Fin 3, cexSt5.passenger = some p → exOracle.dropoffOk = false →
      (∀ e ∈ cexSt5.fares,
        (e.1 ∈ (tickSweep exOracle 51 0 cexSt5).toRemove ↔
          51 - e.1.1 > cexSt5.maxFareWait)) ∧
      (tickSweep exOracle 51 0 cexSt5).picked = []) ∧
    ((cexSt5.passenger = none ∨ exOracle.dropoffOk = true) →
      (∀ n, exOracle.pickup n = none) →
      ∀ e ∈ cexSt5.fares, e.2.allocated = true →
        e.1 ∉ (tickSweep exOracle 51 0 cexSt5).toRemove) :=
  C5_expiry_amended exOracle 51 0 cexSt5 (by decide)

/-- Claim **C7** as stated (at the witness node type): with everything but
the price fixed, raising the price from strictly below to strictly above
the sum of the two leg costs flips the decision from decline to bid, and
raising the price never flips bid to decline. -/
def C7_claim : Prop :=
  ∀ (map : KMap (Fin 3)) (fares : List ((ℤ × Fin 3) × FareInfo (Fin 3)))
    (passenger : Option (Fin 3)) (account maxW : ℤ) (l : Fin 3) (simTime time : ℤ)
    (origin destination : Fin 3) (p1 p2 : ℤ),
    (p1 < 2 * ((planPath map l origin).length : ℤ)
        + 2 * ((planPath map origin destination).length : ℤ) ∧
      p2 > 2 * ((planPath map l origin).length : ℤ)
        + 2 * ((planPath map origin destination).length : ℤ) →
      bidOnFare map fares passenger account maxW l simTime time origin destination p1
          = false ∧
      bidOnFare map fares passenger account maxW l simTime time origin destination p2
          = true) ∧
    (p1 ≤ p2 →
      bidOnFare map fares passenger account maxW l simTime time origin destination p1
          = true →
      bidOnFare map fares passenger account maxW l simTime time origin destination p2
          = true)

/-- C7 fails on the code: the price threshold alone does not produce a bid —
with a passenger aboard (all else favourable) the evaluator declines at
every price, so no price increase flips decline to bid. -/
theorem C7_counterexample : ¬C7_claim := by
  intro h
  have h2 := (h exMap [] (some 0) 100 50 0 0 0 1 2 0 1000).1 (by decide)
  exact absurd h2.2 (by decide)

/-- **C7 amended**: the decision is monotone non-decreasing in the price;
any price not exceeding the sum of the two leg costs is declined; and when
the remaining five criteria hold (no commitment, affordability, the two
wait-related tests, both legs finite), any price strictly above the sum is
bid — only under those criteria does the price flip the decision. -/
theorem C7_bid_monotone_amended {V : Type} [DecidableEq V] [LinearOrder V]
    (map : KMap V) (fares : List ((ℤ × V) × FareInfo V)) (passenger : Option V)
    (account maxW : ℤ) (l : V) (simTime time : ℤ) (origin destination : V) :
    (∀ p1 p2 : ℤ, p1 ≤ p2 →
      bidOnFare map fares passenger account maxW l simTime time origin destination p1
          = true →
      bidOnFare map fares passenger account maxW l simTime time origin destination p2
          = true) ∧
    (∀ p : ℤ, p ≤ 2 * ((planPath map l origin).length : ℤ)
        + 2 * ((planPath map origin destination).length : ℤ) →
      bidOnFare map fares passenger account maxW l simTime time origin destination p
          = false) ∧
    ((passenger = none ∧ allocatedCount fares = 0) →
      account > 2 * ((planPath map l origin).length : ℤ) →
      simTime - time < maxW →
      maxW - (simTime - time) > 2 * ((planPath map l origin).length : ℤ) →
      planPath map l origin ≠ [] → planPath map origin destination ≠ [] →
      ∀ p : ℤ, p > 2 * ((planPath map l origin).length : ℤ)
          + 2 * ((planPath map origin destination).length : ℤ) →
        bidOnFare map fares passenger account maxW l simTime time origin destination p
            = true) := by
  refine ⟨?_, ?_, ?_⟩
  · intro p1 p2 hle h1
    rw [bidOnFare_eq_true_iff] at h1 ⊢
    obtain ⟨ha, hb, hc, hd⟩ := h1
    exact ⟨ha, hb, by omega, hd⟩
  · intro p hp
    rw [← Bool.not_eq_true, bidOnFare_eq_true_iff]
    rintro ⟨_, _, hc, _⟩
    omega
  · intro h1 h2 h3 h4 h5 h6 p hp
    rw [bidOnFare_eq_true_iff]
    exact ⟨h1, h2, hp, h3, h4, h5, h6⟩

/-- Witness for the amended C7: at the witness map the two leg costs are
4 and 4; with favourable conditions, price 100 is bid and price 8 (the
exact sum) is declined. -/
theorem C7_bid_monotone_amended_witness :
    bidOnFare exMap [] none 100 50 0 0 0 1 2 100 = true ∧
    bidOnFare exMap [] none 100 50 0 0 0 1 2 8 = false :=
  ⟨(C7_bid_monotone_amended exMap [] none 100 50 0 0 0 1 2).2.2 ⟨rfl, rfl⟩ (by decide)
      (by decide) (by decide) (by decide) (by decide) 100 (by decide),
    (C7_bid_monotone_amended exMap [] none 100 50 0 0 0 1 2).2.1 8 (by decide)⟩

/-- Witness for C10: re-advising the offer keyed `(0, 1)` replaces it by the
fresh entry with the new destination and price, leaves the other entry's
lookup alone, and preserves length and keys. -/
theorem C10_advice_replaces_witness :
    lookupKey (recvAdvice exState 0 1 0 777).fares (0, 1)
        = some (FareInfo.fresh 0 777) ∧
    (∀ k, k ≠ ((0 : ℤ), (1 : Fin 3)) →
      lookupKey (recvAdvice exState 0 1 0 777).fares k = lookupKey exState.fares k) ∧
    (recvAdvice exState 0 1 0 777).fares.length = exState.fares.length ∧
    keysOf (recvAdvice exState 0 1 0 777).fares = keysOf exState.fares :=
  C10_advice_replaces exState 0 1 0 777 (by decide)

/-- The single-commitment claim as stated: in every state reachable from
the initial state by any interleaving of ticks, drives, and inbound
protocol messages, the carried-passenger count plus the number of
allocated-but-uncollected ledger entries never exceeds 1 (instantiated at
three nodes). -/
def C3_claim : Prop :=
  ∀ (map : KMap (Fin 3)) (maxWait offDutyTime : ℤ) (s : TaxiState (Fin 3)),
    Reach (initTaxi map maxWait offDutyTime) s → commitCount s ≤ 1

/-- **C3** fails as stated: `recvMsg` carries no single-commitment guard on
`FARE_ALLOC`, so a dispatcher that advises two fares and confirms both
leaves two allocated-but-uncollected entries in the ledger (commitment
count 2) in a reachable state. -/
theorem C3_counterexample : ¬C3_claim := by
  intro h
  have hr : Reach (initTaxi (V := Fin 3) exMap 50 0)
      (recvMsg (recvMsg (recvMsg (recvMsg (initTaxi exMap 50 0) 0
        (Msg.advice 1 2 100)) 0 (Msg.advice 2 0 80)) 0 (Msg.alloc 1 2)) 0
        (Msg.alloc 2 0)) := by
    have t0 : Reach (initTaxi (V := Fin 3) exMap 50 0) (initTaxi exMap 50 0) :=
      Relation.ReflTransGen.refl
    have t1 := Relation.ReflTransGen.tail t0 (Step.msg _ 0 (Msg.advice 1 2 100))
    have t2 := Relation.ReflTransGen.tail t1 (Step.msg _ 0 (Msg.advice 2 0 80))
    have t3 := Relation.ReflTransGen.tail t2 (Step.msg _ 0 (Msg.alloc 1 2))
    exact Relation.ReflTransGen.tail t3 (Step.msg _ 0 (Msg.alloc 2 0))
  exact absurd (h exMap 50 0 _ hr) (by decide)

/-- **C3** (amended): provided every `FARE_ALLOC` is delivered only while
the agent carries no passenger and holds no allocated ledger entry (the
single-allocation dispatcher `StepR`), the carried-passenger count plus the
number of allocated-but-uncollected ledger entries is at most 1 in every
state reachable from the initial state by any interleaving of messages,
ticks, and drives. -/
theorem C3_singleCommit_amended {V : Type} [DecidableEq V] [LinearOrder V]
    (map : KMap V) (maxWait offDutyTime : ℤ) (s : TaxiState V)
    (h : ReachR (initTaxi map maxWait offDutyTime) s) :
    commitCount s ≤ 1 :=
  (reachR_commit_inv map maxWait offDutyTime s h).1

/-- Witness for the amended C3: a concrete two-event run (one advice, then
one allocation delivered while nothing is committed), whose final
commitment count the theorem bounds by 1. -/
theorem C3_singleCommit_amended_witness :
    commitCount
      (recvAlloc (recvAdvice (initTaxi (V := Fin 3) exMap 50 0) 0 1 2 100) 1 2) ≤ 1 := by
  refine C3_singleCommit_amended exMap 50 0 _ ?_
  have t0 : ReachR (initTaxi (V := Fin 3) exMap 50 0) (initTaxi exMap 50 0) :=
    Relation.ReflTransGen.refl
  have t1 := Relation.ReflTransGen.tail t0 (StepR.advice _ 0 1 2 100)
  exact Relation.ReflTransGen.tail t1 (StepR.alloc _ 1 2 ⟨rfl, by decide⟩)

end TaxiProof
